import Mathlib

/-!
Verification of the ssl-pinning service core against its specification.

The definitions below are a shallow embedding of the Go sources:
* `internal/signer` (embedded signer implementation): JSON canonicalization
  (RFC 8785 / JCS via `jsoncanonicalizer.Transform`), then SHA-512, then
  RSASSA-PKCS1-v1_5, then standard base64.
* `internal/storage/types`: `DomainKey`, `FileKeys`, `FileStructure`,
  `SignedKeys`.
* `internal/application`: `handleFileJSON`.
* `internal/storage/memory`, `internal/storage/filesystem`,
  `internal/storage/postgres` and the redis backend: `SaveKeys`,
  `GetByFile`, `ProbeReadiness`.
* `internal/metrics`: the Prometheus `Collector`.
* `internal/keys`: the per-FQDN probe `worker` tick.

Modelling conventions: Go byte slices carrying JSON are Lean `String`s,
`time.Time` values are opaque `String` timestamps (only equality and
presence matter to the claims), `int64` is `Int` (the code only compares
and copies these values, it never does wrapping arithmetic on them), and
Go's `(value, error)` returns become `Except`/`Option`.
-/

/-! ## JSON values

A JSON value as handled by `jsoncanonicalizer.Transform`.  The mutual
shape (`Json`/`JsonArr`/`JsonObj`) keeps all recursions structural.
Numbers are modelled as exact integers: every number the service ever
serializes is an `int64` `expire`, and the JCS shortest-form rendering of
an integer is its plain decimal form. -/

mutual

inductive Json where
  | null : Json
  | bool : Bool → Json
  | num : Int → Json
  | str : String → Json
  | arr : JsonArr → Json
  | obj : JsonObj → Json

inductive JsonArr where
  | nil : JsonArr
  | cons : Json → JsonArr → JsonArr

inductive JsonObj where
  | nil : JsonObj
  | cons : String → Json → JsonObj → JsonObj

end

/-- Lexicographic comparison of character lists by code point: the JCS
key order (sorted by UTF-16 code units; all keys this service emits are
ASCII, where code-unit order and code-point order coincide). -/
def charsLe : List Char → List Char → Bool
  | [], _ => true
  | _ :: _, [] => false
  | a :: as, b :: bs =>
    if a.val < b.val then true else if b.val < a.val then false else charsLe as bs

/-- String comparison in JCS key order. -/
def strLeb (a b : String) : Bool := charsLe a.data b.data

/-- Insert a (key, value) pair into an object keeping keys sorted;
used to model the JCS property ordering. -/
def insertObj (k : String) (v : Json) : JsonObj → JsonObj
  | JsonObj.nil => JsonObj.cons k v JsonObj.nil
  | JsonObj.cons k2 v2 rest =>
    if strLeb k k2 then JsonObj.cons k v (JsonObj.cons k2 v2 rest)
    else JsonObj.cons k2 v2 (insertObj k v rest)

mutual

/-- Recursively sort all object keys: the part of
`jsoncanonicalizer.Transform` that makes key order irrelevant. -/
def normJson : Json → Json
  | Json.null => Json.null
  | Json.bool b => Json.bool b
  | Json.num n => Json.num n
  | Json.str s => Json.str s
  | Json.arr xs => Json.arr (normArr xs)
  | Json.obj xs => Json.obj (normObj xs)

def normArr : JsonArr → JsonArr
  | JsonArr.nil => JsonArr.nil
  | JsonArr.cons v rest => JsonArr.cons (normJson v) (normArr rest)

def normObj : JsonObj → JsonObj
  | JsonObj.nil => JsonObj.nil
  | JsonObj.cons k v rest => insertObj k (normJson v) (normObj rest)

end

/-- Escape one character the way JCS renders JSON strings (minimal
escapes: the two mandatory ones, the short control escapes, and
`\u00xx` for the remaining control characters). -/
def escChar (c : Char) : List Char :=
  if c = '"' then ['\\', '"']
  else if c = '\\' then ['\\', '\\']
  else if c = '\n' then ['\\', 'n']
  else if c = '\t' then ['\\', 't']
  else if c = '\r' then ['\\', 'r']
  else if c = '\x08' then ['\\', 'b']
  else if c = '\x0c' then ['\\', 'f']
  else if c.val < 32 then
    let lo := c.val.toNat % 16
    let hi := c.val.toNat / 16 % 16
    ['\\', 'u', '0', '0', (Nat.digitChar hi), (Nat.digitChar lo)]
  else [c]

/-- JCS string rendering. -/
def renderStr (s : String) : String :=
  "\"" ++ String.mk (s.data.foldr (fun c acc => escChar c ++ acc) []) ++ "\""

mutual

/-- Compact (no insignificant whitespace) canonical rendering. -/
def renderJson : Json → String
  | Json.null => "null"
  | Json.bool true => "true"
  | Json.bool false => "false"
  | Json.num n => toString n
  | Json.str s => renderStr s
  | Json.arr xs => "[" ++ renderArrItems xs ++ "]"
  | Json.obj xs => "\x7b" ++ renderObjItems xs ++ "\x7d"

def renderArrItems : JsonArr → String
  | JsonArr.nil => ""
  | JsonArr.cons v JsonArr.nil => renderJson v
  | JsonArr.cons v (JsonArr.cons w rest) =>
    renderJson v ++ "," ++ renderArrItems (JsonArr.cons w rest)

def renderObjItems : JsonObj → String
  | JsonObj.nil => ""
  | JsonObj.cons k v JsonObj.nil => renderStr k ++ ":" ++ renderJson v
  | JsonObj.cons k v (JsonObj.cons k2 v2 rest) =>
    renderStr k ++ ":" ++ renderJson v ++ "," ++
      renderObjItems (JsonObj.cons k2 v2 rest)

end

/-! ## JSON parsing (the input side of `jsoncanonicalizer.Transform`) -/

/-- Skip insignificant JSON whitespace. -/
def skipWs : List Char → List Char
  | [] => []
  | c :: cs =>
    if c = ' ' ∨ c = '\t' ∨ c = '\n' ∨ c = '\r' then skipWs cs else c :: cs

/-- Hexadecimal digit value. -/
def hexVal (c : Char) : Option Nat :=
  if '0' ≤ c ∧ c ≤ '9' then some (c.toNat - '0'.toNat)
  else if 'a' ≤ c ∧ c ≤ 'f' then some (c.toNat - 'a'.toNat + 10)
  else if 'A' ≤ c ∧ c ≤ 'F' then some (c.toNat - 'A'.toNat + 10)
  else none

/-- Parse the remainder of a JSON string literal (after the opening
quote), fuel-bounded. -/
def parseStrRest : Nat → List Char → List Char → Option (String × List Char)
  | 0, _, _ => none
  | _ + 1, _, [] => none
  | fuel + 1, acc, c :: cs =>
    if c = '"' then some (String.mk acc.reverse, cs)
    else if c = '\\' then
      match cs with
      | [] => none
      | e :: cs2 =>
        if e = '"' then parseStrRest fuel ('"' :: acc) cs2
        else if e = '\\' then parseStrRest fuel ('\\' :: acc) cs2
        else if e = '/' then parseStrRest fuel ('/' :: acc) cs2
        else if e = 'n' then parseStrRest fuel ('\n' :: acc) cs2
        else if e = 't' then parseStrRest fuel ('\t' :: acc) cs2
        else if e = 'r' then parseStrRest fuel ('\r' :: acc) cs2
        else if e = 'b' then parseStrRest fuel ('\x08' :: acc) cs2
        else if e = 'f' then parseStrRest fuel ('\x0c' :: acc) cs2
        else if e = 'u' then
          match cs2 with
          | h1 :: h2 :: h3 :: h4 :: cs3 =>
            match hexVal h1, hexVal h2, hexVal h3, hexVal h4 with
            | some a, some b, some c3, some d =>
              let n := ((a * 16 + b) * 16 + c3) * 16 + d
              if n.isValidChar then
                parseStrRest fuel (Char.ofNat n :: acc) cs3
              else none
            | _, _, _, _ => none
          | _ => none
        else none
    else if c.val < 32 then none
    else parseStrRest fuel (c :: acc) cs

/-- Parse a run of decimal digits (at least one). -/
def parseDigits (acc : Nat) (seen : Bool) : List Char → Option (Nat × List Char)
  | [] => if seen then some (acc, []) else none
  | c :: cs =>
    if '0' ≤ c ∧ c ≤ '9' then
      parseDigits (acc * 10 + (c.toNat - '0'.toNat)) true cs
    else if seen then some (acc, c :: cs) else none

/-- Parse an integer JSON number with the JSON leading-zero restriction.
Fractions and exponents are outside the model (the service only ever
serializes `int64` values). -/
def parseNum : List Char → Option (Int × List Char)
  | [] => none
  | c :: cs =>
    if c = '-' then
      match parseDigits 0 false cs with
      | some (n, rest) =>
        match cs with
        | '0' :: d :: _ => if '0' ≤ d ∧ d ≤ '9' then none else some (-(n : Int), rest)
        | _ => some (-(n : Int), rest)
      | none => none
    else
      match parseDigits 0 false (c :: cs) with
      | some (n, rest) =>
        match c :: cs with
        | '0' :: d :: _ => if '0' ≤ d ∧ d ≤ '9' then none else some ((n : Int), rest)
        | _ => some ((n : Int), rest)
      | none => none

mutual

/-- Fuel-bounded JSON value parser. -/
def parseVal : Nat → List Char → Option (Json × List Char)
  | 0, _ => none
  | fuel + 1, cs =>
    match skipWs cs with
    | [] => none
    | c :: rest =>
      if c = Char.ofNat 123 then parseObjItems fuel rest
      else if c = '[' then
        match parseArrItems fuel rest with
        | some (xs, rest2) => some (Json.arr xs, rest2)
        | none => none
      else if c = '"' then
        match parseStrRest (fuel + 1) [] rest with
        | some (s, rest2) => some (Json.str s, rest2)
        | none => none
      else if c = 't' then
        match rest with
        | 'r' :: 'u' :: 'e' :: rest2 => some (Json.bool true, rest2)
        | _ => none
      else if c = 'f' then
        match rest with
        | 'a' :: 'l' :: 's' :: 'e' :: rest2 => some (Json.bool false, rest2)
        | _ => none
      else if c = 'n' then
        match rest with
        | 'u' :: 'l' :: 'l' :: rest2 => some (Json.null, rest2)
        | _ => none
      else
        match parseNum (c :: rest) with
        | some (n, rest2) => some (Json.num n, rest2)
        | none => none

/-- Array items, positioned right after `[` or after a comma. -/
def parseArrItems : Nat → List Char → Option (JsonArr × List Char)
  | 0, _ => none
  | fuel + 1, cs =>
    match skipWs cs with
    | c :: rest =>
      if c = ']' then some (JsonArr.nil, rest)
      else
        match parseVal fuel (c :: rest) with
        | some (v, rest2) =>
          match parseArrCont fuel rest2 with
          | some (tail, rest3) => some (JsonArr.cons v tail, rest3)
          | none => none
        | none => none
    | [] => none

/-- Array continuation: `,` then another item, or `]`. -/
def parseArrCont : Nat → List Char → Option (JsonArr × List Char)
  | 0, _ => none
  | fuel + 1, cs =>
    match skipWs cs with
    | c :: rest =>
      if c = ']' then some (JsonArr.nil, rest)
      else if c = ',' then
        match parseVal fuel rest with
        | some (v, rest2) =>
          match parseArrCont fuel rest2 with
          | some (tail, rest3) => some (JsonArr.cons v tail, rest3)
          | none => none
        | none => none
      else none
    | [] => none

/-- Object members, positioned right after the opening brace. -/
def parseObjItems : Nat → List Char → Option (Json × List Char)
  | 0, _ => none
  | fuel + 1, cs =>
    match skipWs cs with
    | c :: rest =>
      if c = Char.ofNat 125 then some (Json.obj JsonObj.nil, rest)
      else
        match parseMember fuel (c :: rest) with
        | some (k, v, rest2) =>
          match parseObjCont fuel rest2 with
          | some (tail, rest3) => some (Json.obj (JsonObj.cons k v tail), rest3)
          | none => none
        | none => none
    | [] => none

/-- Object continuation: `,` then another member, or the closing brace. -/
def parseObjCont : Nat → List Char → Option (JsonObj × List Char)
  | 0, _ => none
  | fuel + 1, cs =>
    match skipWs cs with
    | c :: rest =>
      if c = Char.ofNat 125 then some (JsonObj.nil, rest)
      else if c = ',' then
        match parseMember fuel rest with
        | some (k, v, rest2) =>
          match parseObjCont fuel rest2 with
          | some (tail, rest3) => some (JsonObj.cons k v tail, rest3)
          | none => none
        | none => none
      else none
    | [] => none

/-- One `"key" : value` member. -/
def parseMember : Nat → List Char → Option (String × Json × List Char)
  | 0, _ => none
  | fuel + 1, cs =>
    match skipWs cs with
    | c :: rest =>
      if c = '"' then
        match parseStrRest (fuel + 1) [] rest with
        | some (k, rest2) =>
          match skipWs rest2 with
          | ':' :: rest3 =>
            match parseVal fuel rest3 with
            | some (v, rest4) => some (k, v, rest4)
            | none => none
          | _ => none
        | none => none
      else none
    | [] => none

end

/-- Parse a complete JSON document (no trailing garbage). -/
def parseJson (s : String) : Option Json :=
  match parseVal (2 * s.length + 8) s.data with
  | some (v, rest) => if skipWs rest = [] then some v else none
  | none => none

/-- Model of `jsoncanonicalizer.Transform`: parse, recursively sort
object keys, render compactly. -/
def jcsTransform (data : String) : Except String String :=
  match parseJson data with
  | none => Except.error "failed to canonicalize JSON"
  | some v => Except.ok (renderJson (normJson v))

/-! ## Signer (`internal/signer`) -/

/-- The signer state.  `signCanonical` is the composite
SHA-512 / RSASSA-PKCS1-v1_5 / base64 step of `Signer.Sign`: each of the
three is a deterministic pure function of the canonical bytes and the
loaded RSA private key (PKCS1 v1.5 signing ignores the random reader),
so the model folds them into one deterministic function attached to the
loaded key. -/
structure Signer where
  signCanonical : String → String

/-- Model of `Signer.Sign`: canonicalize the JSON payload, then hash,
sign and base64-encode the canonical bytes. -/
def signerSign (s : Signer) (data : String) : Except String String :=
  match jcsTransform data with
  | Except.error e => Except.error ("failed to canonicalize JSON: " ++ e)
  | Except.ok canonical => Except.ok (s.signCanonical canonical)

/-- Claim C1: two JSON payloads that are equal up to object key order
and insignificant whitespace (same parse up to recursive key sorting)
receive the identical base64 signature from `Signer.Sign`, and `Sign`
is deterministic on any single payload. -/
theorem sign_canonicalization_equivalence (s : Signer) (p1 p2 : String)
    (v1 v2 : Json) (h1 : parseJson p1 = some v1) (h2 : parseJson p2 = some v2)
    (h12 : normJson v1 = normJson v2) :
    signerSign s p1 = signerSign s p2 ∧ signerSign s p1 = signerSign s p1 := by
  have e1 : jcsTransform p1 = Except.ok (renderJson (normJson v1)) := by
    unfold jcsTransform; rw [h1]
  have e2 : jcsTransform p2 = Except.ok (renderJson (normJson v2)) := by
    unfold jcsTransform; rw [h2]
  constructor
  · unfold signerSign
    rw [e1, e2, h12]
  · rfl

/-- Witness for C1, on the payloads named by the spec (§8 scenario 8). -/
theorem sign_canonicalization_equivalence_witness :
    signerSign ⟨id⟩ "\x7b\"b\":2,\"a\":1\x7d" =
      signerSign ⟨id⟩ "\x7b\"a\": 1, \"b\": 2\x7d" :=
  (sign_canonicalization_equivalence ⟨id⟩
    "\x7b\"b\":2,\"a\":1\x7d" "\x7b\"a\": 1, \"b\": 2\x7d"
    (Json.obj (JsonObj.cons "b" (Json.num 2)
      (JsonObj.cons "a" (Json.num 1) JsonObj.nil)))
    (Json.obj (JsonObj.cons "a" (Json.num 1)
      (JsonObj.cons "b" (Json.num 2) JsonObj.nil)))
    rfl rfl rfl).1

/-! ## Domain keys and manifests (`internal/storage/types`) -/

/-- `types.DomainKey`: one observed pin for an FQDN.  `Date` is an
opaque timestamp string (`*time.Time`, RFC 3339 when rendered), absent
when the pointer is nil. -/
structure DomainKey where
  appID : String
  date : Option String
  domainName : String
  expire : Int
  file : String
  fqdn : String
  key : String
  lastError : String
deriving DecidableEq, Repr

/-- The Go zero value `types.DomainKey{}`. -/
def emptyDomainKey : DomainKey :=
  { appID := "", date := none, domainName := "", expire := 0,
    file := "", fqdn := "", key := "", lastError := "" }

/-- `types.FileKeys`. -/
structure FileKeys where
  keys : List DomainKey
deriving DecidableEq, Repr

/-- `types.FileStructure`. -/
structure FileStructure where
  payload : FileKeys
  signature : String
deriving DecidableEq, Repr

/-- Append a field only when present (Go `json` tag `omitempty`). -/
def consIf (b : Bool) (k : String) (v : Json) (rest : JsonObj) : JsonObj :=
  if b then JsonObj.cons k v rest else rest

/-- JSON form of a `DomainKey`, fields in Go struct order, each tagged
`omitempty`. -/
def jsonOfDomainKey (k : DomainKey) : Json :=
  Json.obj
    (consIf (!(k.appID == "")) "app_id" (Json.str k.appID)
    (consIf k.date.isSome "date" (Json.str (k.date.getD ""))
    (consIf (!(k.domainName == "")) "domainName" (Json.str k.domainName)
    (consIf (!(k.expire == 0)) "expire" (Json.num k.expire)
    (consIf (!(k.file == "")) "file" (Json.str k.file)
    (consIf (!(k.fqdn == "")) "fqdn" (Json.str k.fqdn)
    (consIf (!(k.key == "")) "key" (Json.str k.key)
    (consIf (!(k.lastError == "")) "last_error" (Json.str k.lastError)
      JsonObj.nil))))))))

/-- Turn a list of JSON values into a `JsonArr`. -/
def arrOfList : List Json → JsonArr
  | [] => JsonArr.nil
  | v :: rest => JsonArr.cons v (arrOfList rest)

/-- JSON form of `FileKeys` (`keys` tagged `omitempty`). -/
def jsonOfFileKeys (fk : FileKeys) : Json :=
  Json.obj
    (consIf (!(fk.keys.isEmpty)) "keys"
      (Json.arr (arrOfList (fk.keys.map jsonOfDomainKey))) JsonObj.nil)

/-- JSON form of `FileStructure` (a struct field is never omitted by
`omitempty`, so `payload` is always present). -/
def jsonOfFileStructure (fs : FileStructure) : Json :=
  Json.obj
    (JsonObj.cons "payload" (jsonOfFileKeys fs.payload)
    (consIf (!(fs.signature == "")) "signature" (Json.str fs.signature)
      JsonObj.nil))

mutual

/-- Indented rendering, modelling `json.MarshalIndent(v, "", "  ")`. -/
def renderInd (ind : String) : Json → String
  | Json.null => "null"
  | Json.bool true => "true"
  | Json.bool false => "false"
  | Json.num n => toString n
  | Json.str s => renderStr s
  | Json.arr JsonArr.nil => "[]"
  | Json.arr (JsonArr.cons v rest) =>
    "[\n" ++ renderIndArr (ind ++ "  ") (JsonArr.cons v rest) ++ "\n" ++ ind ++ "]"
  | Json.obj JsonObj.nil => "\x7b\x7d"
  | Json.obj (JsonObj.cons k v rest) =>
    "\x7b\n" ++ renderIndObj (ind ++ "  ") (JsonObj.cons k v rest) ++ "\n" ++ ind ++ "\x7d"

def renderIndArr (ind : String) : JsonArr → String
  | JsonArr.nil => ""
  | JsonArr.cons v JsonArr.nil => ind ++ renderInd ind v
  | JsonArr.cons v (JsonArr.cons w rest) =>
    ind ++ renderInd ind v ++ ",\n" ++ renderIndArr ind (JsonArr.cons w rest)

def renderIndObj (ind : String) : JsonObj → String
  | JsonObj.nil => ""
  | JsonObj.cons k v JsonObj.nil => ind ++ renderStr k ++ ": " ++ renderInd ind v
  | JsonObj.cons k v (JsonObj.cons k2 v2 rest) =>
    ind ++ renderStr k ++ ": " ++ renderInd ind v ++ ",\n" ++
      renderIndObj ind (JsonObj.cons k2 v2 rest)

end

/-- `json.MarshalIndent(v, "", "  ")` on a `FileKeys` payload. -/
def marshalFileKeys (fk : FileKeys) : String := renderInd "" (jsonOfFileKeys fk)

/-- `json.MarshalIndent(v, "", "  ")` on a `FileStructure`. -/
def marshalFileStructure (fs : FileStructure) : String :=
  renderInd "" (jsonOfFileStructure fs)

/-- The `sort.Slice` comparison of `SignedKeys`: ascending by `expire`. -/
def expireLe (a b : DomainKey) : Prop := a.expire ≤ b.expire

instance : DecidableRel expireLe := fun a b =>
  inferInstanceAs (Decidable (a.expire ≤ b.expire))

instance : IsTotal DomainKey expireLe :=
  ⟨fun a b => Int.le_total a.expire b.expire⟩

instance : IsTrans DomainKey expireLe :=
  ⟨fun _ _ _ h1 h2 => le_trans h1 h2⟩

/-- Model of `types.SignedKeys`, at the level of the `FileStructure` it
marshals: empty input short-circuits to "no payload" (`nil, nil` in Go);
otherwise the keys are sorted ascending by `expire` (Go `sort.Slice`
guarantees a sorted permutation; the model uses insertion sort), the
payload is marshalled as indented JSON, signed, and the payload plus
signature are wrapped into a `FileStructure`.  The Go function returns
the indented marshalling of that structure, i.e.
`marshalFileStructure` of this function's result. -/
def SignedKeysStruct (file : String) (keys : List DomainKey) (s : Signer) :
    Except String (Option FileStructure) :=
  if keys.length < 1 then Except.ok none
  else
    let sorted := List.insertionSort expireLe keys
    let payload : FileKeys := ⟨sorted⟩
    let out := marshalFileKeys payload
    match signerSign s out with
    | Except.error e => Except.error ("SignedKeys - failed to sign data: " ++ e)
    | Except.ok sig => Except.ok (some ⟨payload, sig⟩)

/-- The signer model with the hash-sign-base64 step left as the
identity; used to run the pipeline on concrete inputs. -/
def idSigner : Signer := ⟨id⟩

/-- Claim C2: `SignedKeys` returns no payload on an empty record list,
and any successfully produced manifest carries exactly the input
records, sorted ascending by `expire`. -/
theorem signedKeys_empty_and_sorted (file : String) (keys : List DomainKey)
    (s : Signer) :
    (keys = [] → SignedKeysStruct file keys s = Except.ok none) ∧
    (∀ fs, SignedKeysStruct file keys s = Except.ok (some fs) →
      fs.payload.keys.Perm keys ∧ List.Sorted expireLe fs.payload.keys) := by
  constructor
  · intro h
    subst h
    rfl
  · intro fs h
    unfold SignedKeysStruct at h
    by_cases hk : keys.length < 1
    · simp [hk] at h
    · simp only [if_neg hk] at h
      cases hs : signerSign s (marshalFileKeys ⟨List.insertionSort expireLe keys⟩) with
      | error e => rw [hs] at h; cases h
      | ok sig =>
        rw [hs] at h
        cases h
        constructor
        · exact List.perm_insertionSort expireLe keys
        · exact List.sorted_insertionSort expireLe keys

set_option maxRecDepth 100000 in
/-- Witness for C2: the empty list yields no payload, and a concrete
two-record list comes back sorted by `expire` in the signed payload. -/
theorem signedKeys_empty_and_sorted_witness :
    SignedKeysStruct "f.json" [] idSigner = Except.ok none ∧
    ∃ fs, SignedKeysStruct "f.json"
        [{ emptyDomainKey with expire := 2, fqdn := "b", key := "k2" },
         { emptyDomainKey with expire := 1, fqdn := "a", key := "k1" }] idSigner =
        Except.ok (some fs) ∧
      fs.payload.keys.Perm
        [{ emptyDomainKey with expire := 2, fqdn := "b", key := "k2" },
         { emptyDomainKey with expire := 1, fqdn := "a", key := "k1" }] ∧
      List.Sorted expireLe fs.payload.keys := by
  constructor
  · exact (signedKeys_empty_and_sorted "f.json" [] idSigner).1 rfl
  · refine ⟨⟨⟨[{ emptyDomainKey with expire := 1, fqdn := "a", key := "k1" },
         { emptyDomainKey with expire := 2, fqdn := "b", key := "k2" }]⟩,
      "\x7b\"keys\":[\x7b\"expire\":1,\"fqdn\":\"a\",\"key\":\"k1\"\x7d,\x7b\"expire\":2,\"fqdn\":\"b\",\"key\":\"k2\"\x7d]\x7d"⟩,
      ?h, ?_⟩
    case h => rfl
    case _ =>
      have h2 := (signedKeys_empty_and_sorted "f.json"
        [{ emptyDomainKey with expire := 2, fqdn := "b", key := "k2" },
         { emptyDomainKey with expire := 1, fqdn := "a", key := "k1" }] idSigner).2
      exact h2 _ rfl

/-! ## The manifest HTTP handler (`internal/application.handleFileJSON`) -/

/-- What `PinStore.GetByFile` hands the handler: the record list, the
raw bytes (`none` models a nil Go slice, `some ""` a non-nil empty
one), and the error. -/
structure StorageResult where
  keys : List DomainKey
  data : Option String
  err : Option String
deriving DecidableEq, Repr

/-- An HTTP response as the handler writes it. -/
structure HttpResponse where
  status : Nat
  contentType : String
  body : String
deriving DecidableEq, Repr

/-- Go `http.Error`: text/plain with a trailing newline. -/
def plainError (status : Nat) (msg : String) : HttpResponse :=
  { status := status, contentType := "text/plain; charset=utf-8",
    body := msg ++ "\n" }

/-- Model of `App.handleFileJSON` (the 3-second development sleep has no
observable effect on the response and is dropped): empty `file` is 400;
a backend error is 500; with more than one record the signed manifest
replaces `data` (a signing failure is 500); a non-nil `data` is served
as 200 `application/json`; nil `data` is 404. -/
def handleFileJSON (file : String) (res : StorageResult) (s : Signer) :
    HttpResponse :=
  if file = "" then plainError 400 "file required"
  else
    match res.err with
    | some e => plainError 500 e
    | none =>
      let step : Except String (Option String) :=
        if res.keys.length > 1 then
          match SignedKeysStruct file res.keys s with
          | Except.error e => Except.error e
          | Except.ok fs => Except.ok (fs.map marshalFileStructure)
        else Except.ok res.data
      match step with
      | Except.error e => plainError 500 e
      | Except.ok (some d) =>
        { status := 200, contentType := "application/json", body := d }
      | Except.ok none => plainError 404 ("file " ++ file ++ " not found")

/-- The `data` value the handler ends up holding before the final
nil-check: the backend bytes, overridden by the signed manifest when
more than one record came back. -/
def assembleData (file : String) (res : StorageResult) (s : Signer) :
    Except String (Option String) :=
  if res.keys.length > 1 then
    match SignedKeysStruct file res.keys s with
    | Except.error e => Except.error e
    | Except.ok fs => Except.ok (fs.map marshalFileStructure)
  else Except.ok res.data

/-- Claim C6 (amended): the handler's status mapping.  The final check
is on `data != nil`, not on `data` being non-empty: a non-nil empty
byte slice (e.g. an empty manifest file read by the filesystem backend)
is served as 200 with an empty body. -/
theorem handleFileJSON_statuses (file : String) (res : StorageResult)
    (s : Signer) :
    (file = "" → handleFileJSON file res s = plainError 400 "file required") ∧
    (file ≠ "" → ∀ e, res.err = some e →
      handleFileJSON file res s = plainError 500 e) ∧
    (file ≠ "" → res.err = none →
      ((∀ e, assembleData file res s = Except.error e →
          handleFileJSON file res s = plainError 500 e) ∧
       (∀ d, assembleData file res s = Except.ok (some d) →
          handleFileJSON file res s =
            { status := 200, contentType := "application/json", body := d }) ∧
       (assembleData file res s = Except.ok none →
          handleFileJSON file res s =
            plainError 404 ("file " ++ file ++ " not found")))) := by
  refine ⟨fun hf => ?_, fun hf e he => ?_, fun hf he => ?_⟩
  · simp [handleFileJSON, hf]
  · simp [handleFileJSON, hf, he]
  · refine ⟨fun e ha => ?_, fun d ha => ?_, fun ha => ?_⟩ <;>
      simp only [handleFileJSON, assembleData] at ha ⊢ <;>
      simp [hf, he, ha]

/-- Witness for C6 (amended): each branch at a concrete input — empty
file parameter, backend error, non-nil empty data, nil data. -/
theorem handleFileJSON_statuses_witness :
    handleFileJSON "" ⟨[], none, none⟩ idSigner =
      plainError 400 "file required" ∧
    handleFileJSON "a.json" ⟨[], none, some "boom"⟩ idSigner =
      plainError 500 "boom" ∧
    handleFileJSON "a.json" ⟨[], some "", none⟩ idSigner =
      { status := 200, contentType := "application/json", body := "" } ∧
    handleFileJSON "a.json" ⟨[], none, none⟩ idSigner =
      plainError 404 "file a.json not found" := by
  refine ⟨?_, ?_, ?_, ?_⟩
  · exact (handleFileJSON_statuses "" ⟨[], none, none⟩ idSigner).1 rfl
  · exact (handleFileJSON_statuses "a.json" ⟨[], none, some "boom"⟩
      idSigner).2.1 (by decide) "boom" rfl
  · exact ((handleFileJSON_statuses "a.json" ⟨[], some "", none⟩
      idSigner).2.2 (by decide) rfl).2.1 "" rfl
  · exact ((handleFileJSON_statuses "a.json" ⟨[], none, none⟩
      idSigner).2.2 (by decide) rfl).2.2 rfl

/-- Counterexample for C6 as frozen: with exactly the backend response
the filesystem store produces for an empty manifest file (no records,
non-nil empty bytes, no error), the assembled data is empty yet the
handler answers 200 with an empty body, not 404. -/
theorem handleFileJSON_nonempty_counterexample :
    (handleFileJSON "a.json" ⟨[], some "", none⟩ idSigner).status = 200 ∧
    (handleFileJSON "a.json" ⟨[], some "", none⟩ idSigner).body = "" ∧
    ¬ (handleFileJSON "a.json" ⟨[], some "", none⟩ idSigner).status = 404 := by
  refine ⟨rfl, rfl, by decide⟩

/-- Claim C3 (amended): with exactly one record the handler never
signs; it serves the backend's raw bytes when they are present and
otherwise falls through to 404 (`data` stays nil), matching the
asymmetry recorded in spec §9 OQ1. -/
theorem handleFileJSON_single_record (file : String) (res : StorageResult)
    (s : Signer) (hf : file ≠ "") (he : res.err = none)
    (hk : res.keys.length = 1) :
    (∀ d, res.data = some d →
      handleFileJSON file res s =
        { status := 200, contentType := "application/json", body := d }) ∧
    (res.data = none →
      handleFileJSON file res s =
        plainError 404 ("file " ++ file ++ " not found")) := by
  have hnot : ¬ (res.keys.length > 1) := by omega
  constructor
  · intro d hd
    simp [handleFileJSON, hf, he, hnot, hd]
  · intro hd
    simp [handleFileJSON, hf, he, hnot, hd]

/-- Witness for C3 (amended): one record with raw bytes is served
verbatim; one record without raw bytes is a 404. -/
theorem handleFileJSON_single_record_witness :
    handleFileJSON "a.json"
      ⟨[{ emptyDomainKey with fqdn := "a.test", key := "k", expire := 5 }],
        some "\x7b\"x\":1\x7d", none⟩ idSigner =
      { status := 200, contentType := "application/json",
        body := "\x7b\"x\":1\x7d" } ∧
    handleFileJSON "a.json"
      ⟨[{ emptyDomainKey with fqdn := "a.test", key := "k", expire := 5 }],
        none, none⟩ idSigner =
      plainError 404 "file a.json not found" := by
  constructor
  · exact (handleFileJSON_single_record "a.json"
      ⟨[{ emptyDomainKey with fqdn := "a.test", key := "k", expire := 5 }],
        some "\x7b\"x\":1\x7d", none⟩ idSigner (by decide) rfl rfl).1 _ rfl
  · exact (handleFileJSON_single_record "a.json"
      ⟨[{ emptyDomainKey with fqdn := "a.test", key := "k", expire := 5 }],
        none, none⟩ idSigner (by decide) rfl rfl).2 rfl

/-- Counterexample for C3 as frozen: exactly one record and no raw
bytes from the backend yields 404, not the single-record signed
manifest the claim promises. -/
theorem handleFileJSON_single_record_counterexample :
    (handleFileJSON "a.json"
      ⟨[{ emptyDomainKey with fqdn := "a.test", key := "k", expire := 5 }],
        none, none⟩ idSigner).status = 404 ∧
    ¬ (handleFileJSON "a.json"
      ⟨[{ emptyDomainKey with fqdn := "a.test", key := "k", expire := 5 }],
        none, none⟩ idSigner).status = 200 := by
  refine ⟨rfl, by decide⟩

/-! ## Filesystem backend readiness probe
(`internal/storage/filesystem.ProbeReadiness`) -/

/-- A directory entry as `os.ReadDir` hands it to the probe: its name
and its modification time, in seconds (the probe only compares
`now − modTime` against the fixed 10-second window, so seconds
resolution is faithful). -/
structure FsEntry where
  name : String
  modTime : Int
deriving DecidableEq, Repr

/-- Model of the filesystem `ProbeReadiness` handler body: an unreadable
directory or an empty one is 503; otherwise every entry older than the
10-second window appends a diagnostic line, and any diagnostic makes the
response 503 with the lines newline-joined.  (`e.Info()` errors are a
filesystem race the pure model excludes.) -/
def probeReadinessFS (dumpDir : String) (dir : Except String (List FsEntry))
    (now : Int) : HttpResponse :=
  let errs : List String :=
    match dir with
    | Except.error e =>
      ["failed to read dump dir \"" ++ dumpDir ++ "\": " ++ e]
    | Except.ok entries =>
      if entries.isEmpty then ["no dump files found"]
      else
        entries.filterMap (fun en =>
          if 10 ≤ now - en.modTime then some "no dump files newer than 10s"
          else none)
  if errs.isEmpty then { status := 200, contentType := "", body := "" }
  else { status := 503, contentType := "",
         body := String.intercalate "\n" errs }

/-- Claim C4 (amended): the filesystem readiness probe is 503 when the
directory is unreadable or empty, and with at least one entry it is 200
exactly when every entry was modified within the last 10 seconds — file
age does matter, any stale entry forces 503. -/
theorem probeReadinessFS_spec (dumpDir : String)
    (dir : Except String (List FsEntry)) (now : Int) :
    (∀ e, dir = Except.error e →
      (probeReadinessFS dumpDir dir now).status = 503) ∧
    (dir = Except.ok [] →
      probeReadinessFS dumpDir dir now =
        { status := 503, contentType := "", body := "no dump files found" }) ∧
    (∀ es, dir = Except.ok es → es ≠ [] →
      ((probeReadinessFS dumpDir dir now).status = 200 ↔
        ∀ en ∈ es, now - en.modTime < 10)) := by
  refine ⟨fun e he => ?_, fun he => ?_, fun es he hne => ?_⟩
  · subst he
    rfl
  · subst he
    rfl
  · subst he
    have hcond : (es.filterMap (fun en =>
        if 10 ≤ now - en.modTime then some "no dump files newer than 10s"
        else none)) = [] ↔ ∀ en ∈ es, now - en.modTime < 10 := by
      rw [List.filterMap_eq_nil_iff]
      constructor
      · intro h en hen
        have h2 := h en hen
        by_contra hc
        rw [if_pos (by omega)] at h2
        cases h2
      · intro h en hen
        have h2 := h en hen
        rw [if_neg (by omega)]
    have hes : es.isEmpty = false := by
      cases es with
      | nil => exact absurd rfl hne
      | cons a l => rfl
    simp only [probeReadinessFS, hes, Bool.false_eq_true, if_false]
    by_cases hnil : (es.filterMap (fun en =>
        if 10 ≤ now - en.modTime then some "no dump files newer than 10s"
        else none)) = []
    · simp [hnil]
      exact hcond.mp hnil
    · have hf : (es.filterMap (fun en =>
          if 10 ≤ now - en.modTime then some "no dump files newer than 10s"
          else none)).isEmpty = false := by
        cases h : es.filterMap (fun en =>
            if 10 ≤ now - en.modTime then some "no dump files newer than 10s"
            else none) with
        | nil => exact absurd h hnil
        | cons a l => rfl
      simp only [hf, Bool.false_eq_true, if_false]
      constructor
      · intro h
        cases h
      · intro h
        exact absurd (hcond.mpr h) hnil

/-- Witness for C4 (amended): an unreadable directory and an empty one
are 503; a single fresh file is 200; a single 100-second-old file is
not 200. -/
theorem probeReadinessFS_spec_witness :
    (probeReadinessFS "/dump" (Except.error "permission denied") 5).status = 503 ∧
    probeReadinessFS "/dump" (Except.ok []) 5 =
      { status := 503, contentType := "", body := "no dump files found" } ∧
    (probeReadinessFS "/dump" (Except.ok [⟨"a.json", 3⟩]) 5).status = 200 ∧
    ¬ (probeReadinessFS "/dump" (Except.ok [⟨"a.json", 0⟩]) 100).status = 200 := by
  refine ⟨?_, ?_, ?_, ?_⟩
  · exact (probeReadinessFS_spec "/dump" (Except.error "permission denied")
      5).1 "permission denied" rfl
  · exact (probeReadinessFS_spec "/dump" (Except.ok []) 5).2.1 rfl
  · exact ((probeReadinessFS_spec "/dump" (Except.ok [⟨"a.json", 3⟩])
      5).2.2 [⟨"a.json", 3⟩] rfl (by decide)).mpr (by decide)
  · intro h
    have := ((probeReadinessFS_spec "/dump" (Except.ok [⟨"a.json", 0⟩])
      100).2.2 [⟨"a.json", 0⟩] rfl (by decide)).mp h
    have h2 := this ⟨"a.json", 0⟩ (by simp)
    simp at h2

/-- Counterexample for C4 as frozen: a manifest file exists under
DumpDir, yet because it is 100 seconds old the probe answers 503, not
the claimed 200 "regardless of the files' age". -/
theorem probeReadinessFS_age_counterexample :
    (probeReadinessFS "/dump" (Except.ok [⟨"a.json", 0⟩]) 100).status = 503 ∧
    ¬ (probeReadinessFS "/dump" (Except.ok [⟨"a.json", 0⟩]) 100).status = 200 := by
  refine ⟨rfl, by decide⟩

/-! ## Association lists

Go maps are modelled as association lists; lookup and update mirror map
indexing and assignment.  Iteration order of a Go map is unspecified;
the model iterates in list order, and every property proved about the
maps is order-independent (lookups, memberships). -/

/-- Map lookup. -/
def assocGet {κ α : Type} [DecidableEq κ] : List (κ × α) → κ → Option α
  | [], _ => none
  | (k2, v) :: rest, k => if k2 = k then some v else assocGet rest k

/-- Map assignment (update or insert). -/
def assocSet {κ α : Type} [DecidableEq κ] :
    List (κ × α) → κ → α → List (κ × α)
  | [], k, v => [(k, v)]
  | (k2, v2) :: rest, k, v =>
    if k2 = k then (k, v) :: rest else (k2, v2) :: assocSet rest k v

/-- Map entry deletion. -/
def assocDel {κ α : Type} [DecidableEq κ] (m : List (κ × α)) (k : κ) :
    List (κ × α) :=
  m.filter (fun p => p.1 ≠ k)

theorem assocGet_set_self {κ α : Type} [DecidableEq κ] (m : List (κ × α))
    (k : κ) (v : α) : assocGet (assocSet m k v) k = some v := by
  induction m with
  | nil => simp [assocSet, assocGet]
  | cons p rest ih =>
    by_cases h : p.1 = k
    · simp [assocSet, h, assocGet]
    · simp [assocSet, h, assocGet, ih]

theorem assocGet_set_ne {κ α : Type} [DecidableEq κ] (m : List (κ × α))
    (k k2 : κ) (v : α) (h : k ≠ k2) :
    assocGet (assocSet m k v) k2 = assocGet m k2 := by
  induction m with
  | nil => simp [assocSet, assocGet, h]
  | cons p rest ih =>
    by_cases hp : p.1 = k
    · simp [assocSet, hp, assocGet, h]
    · simp [assocSet, hp, assocGet, ih]

theorem assocGet_mem {κ α : Type} [DecidableEq κ] (m : List (κ × α))
    (k : κ) (v : α) (h : assocGet m k = some v) : (k, v) ∈ m := by
  induction m with
  | nil => cases h
  | cons p rest ih =>
    by_cases hp : p.1 = k
    · rw [show p = (p.1, p.2) from rfl] at h ⊢
      simp only [assocGet, hp, if_pos] at h
      cases h
      rw [hp]
      exact List.mem_cons_self _ _
    · rw [show p = (p.1, p.2) from rfl] at h
      simp only [assocGet, hp, if_false] at h
      exact List.mem_cons_of_mem _ (ih h)

theorem assocSet_mem_keys {κ α : Type} [DecidableEq κ] (m : List (κ × α))
    (k k2 : κ) (v : α) (h : k2 ∈ m.map Prod.fst) :
    k2 ∈ (assocSet m k v).map Prod.fst := by
  induction m with
  | nil => cases h
  | cons p rest ih =>
    by_cases hp : p.1 = k
    · simp only [assocSet, hp, if_pos, List.map_cons, List.mem_cons] at h ⊢
      rcases h with h | h
      · exact Or.inl (hp ▸ h)
      · exact Or.inr h
    · simp only [assocSet, hp, if_false, List.map_cons, List.mem_cons] at h ⊢
      rcases h with h | h
      · exact Or.inl h
      · exact Or.inr (ih h)

theorem assocSet_self_mem_keys {κ α : Type} [DecidableEq κ]
    (m : List (κ × α)) (k : κ) (v : α) :
    k ∈ (assocSet m k v).map Prod.fst := by
  induction m with
  | nil => simp [assocSet]
  | cons p rest ih =>
    by_cases hp : p.1 = k
    · simp [assocSet, hp]
    · simp only [assocSet, hp, if_false, List.map_cons, List.mem_cons]
      exact Or.inr ih

/-! ## Memory backend (`internal/storage/memory`) -/

/-- The in-memory store: `map[string]types.DomainKey` indexed by FQDN. -/
abbrev MemMap := List (String × DomainKey)

/-- The per-record diagnostic `SaveKeys` collects for an empty key. -/
def memErrMsg (k : DomainKey) : String :=
  "empty key for fqdn=\"" ++ k.fqdn ++ "\" domain=\"" ++ k.domainName ++
    "\" file=\"" ++ k.file ++ "\""

/-- Model of memory `SaveKeys`: one pass over the incoming map's values
(the Go loop collects empty-key diagnostics and inserts the valid
records into a fresh map; the model separates the loop's two
accumulators), then the stored map is replaced wholesale (`s.keys =
list`) — the old contents never influence the result — and an aggregate
error is returned iff any record had an empty key. -/
def memSaveKeys (oldKeys : MemMap) (input : List DomainKey) :
    MemMap × Option String :=
  let errs := input.filterMap (fun k =>
    if k.key = "" then some (memErrMsg k) else none)
  let list := input.foldl (fun m k =>
    if k.key = "" then m else assocSet m k.fqdn k) ([] : MemMap)
  (list,
   if errs.isEmpty then none
   else some ("failed to save some keys: " ++ String.intercalate "; " errs))

/-- Model of memory `GetByFile`: every stored record with a non-empty
key and a matching `file`, returned with the `file` field cleared;
`rawBytes` and the error are always nil. -/
def memGetByFile (st : MemMap) (file : String) :
    List DomainKey × Option String × Option String :=
  (st.filterMap (fun p =>
    if p.2.key = "" then none
    else if p.2.file = file then some { p.2 with file := "" } else none),
   none, none)

/-- Lookup characterization of the map `memSaveKeys` builds. -/
theorem memBuild_lookup (input : List DomainKey) (m : MemMap) (f : String)
    (v : DomainKey) :
    assocGet (input.foldl (fun m k =>
      if k.key = "" then m else assocSet m k.fqdn k) m) f = some v →
    (v ∈ input ∧ v.key ≠ "" ∧ v.fqdn = f) ∨ assocGet m f = some v := by
  induction input generalizing m with
  | nil => intro h; exact Or.inr h
  | cons k rest ih =>
    intro h
    simp only [List.foldl_cons] at h
    rcases ih _ h with hin | hbase
    · exact Or.inl ⟨List.mem_cons_of_mem _ hin.1, hin.2⟩
    · by_cases hk : k.key = ""
      · rw [if_pos hk] at hbase
        exact Or.inr hbase
      · rw [if_neg hk] at hbase
        by_cases hf : k.fqdn = f
        · subst hf
          rw [assocGet_set_self] at hbase
          cases hbase
          exact Or.inl ⟨List.mem_cons_self _ _, hk, rfl⟩
        · rw [assocGet_set_ne _ _ _ _ hf] at hbase
          exact Or.inr hbase

/-- Absence characterization of the map `memSaveKeys` builds. -/
theorem memBuild_absent (input : List DomainKey) (m : MemMap) (f : String) :
    assocGet (input.foldl (fun m k =>
      if k.key = "" then m else assocSet m k.fqdn k) m) f = none →
    assocGet m f = none ∧ ∀ k ∈ input, k.fqdn = f → k.key = "" := by
  induction input generalizing m with
  | nil => intro h; exact ⟨h, by simp⟩
  | cons k rest ih =>
    intro h
    simp only [List.foldl_cons] at h
    obtain ⟨hbase, hrest⟩ := ih _ h
    by_cases hk : k.key = ""
    · rw [if_pos hk] at hbase
      refine ⟨hbase, ?_⟩
      intro k2 hk2 hf
      rcases List.mem_cons.mp hk2 with he | hm
      · subst he; exact hk
      · exact hrest k2 hm hf
    · rw [if_neg hk] at hbase
      by_cases hf : k.fqdn = f
      · subst hf
        rw [assocGet_set_self] at hbase
        cases hbase
      · rw [assocGet_set_ne _ _ _ _ hf] at hbase
        refine ⟨hbase, ?_⟩
        intro k2 hk2 hf2
        rcases List.mem_cons.mp hk2 with he | hm
        · subst he; exact absurd hf2 hf
        · exact hrest k2 hm hf2

/-- Claim C7: memory `SaveKeys` wholesale-replaces the stored map with
exactly the non-empty-key input records indexed by FQDN, reporting an
aggregate error iff some record had an empty key while still storing
the valid ones; `GetByFile` then returns exactly the stored records
with matching `file` and non-empty key, `file` field cleared. -/
theorem memory_save_get_spec :
    (∀ old1 old2 input, memSaveKeys old1 input = memSaveKeys old2 input) ∧
    (∀ old input,
      ((memSaveKeys old input).2 ≠ none ↔ ∃ k ∈ input, k.key = "")) ∧
    (∀ old input f v, assocGet (memSaveKeys old input).1 f = some v →
      v ∈ input ∧ v.key ≠ "" ∧ v.fqdn = f) ∧
    (∀ old input k, k ∈ input → k.key ≠ "" →
      ∃ v, assocGet (memSaveKeys old input).1 k.fqdn = some v ∧
        v ∈ input ∧ v.key ≠ "" ∧ v.fqdn = k.fqdn) ∧
    (∀ st file r,
      (r ∈ (memGetByFile st file).1 ↔
        ∃ p ∈ st, p.2.key ≠ "" ∧ p.2.file = file ∧ r = { p.2 with file := "" })) ∧
    (∀ st file, (memGetByFile st file).2.1 = none ∧
      (memGetByFile st file).2.2 = none) := by
  refine ⟨fun old1 old2 input => rfl, fun old input => ?_,
    fun old input f v h => ?_, fun old input k hk hne => ?_,
    fun st file r => ?_, fun st file => ⟨rfl, rfl⟩⟩
  · constructor
    · intro hne
      by_contra hno
      push_neg at hno
      have he : input.filterMap (fun k =>
          if k.key = "" then some (memErrMsg k) else none) = [] := by
        rw [List.filterMap_eq_nil_iff]
        intro k hk
        rw [if_neg (hno k hk)]
      apply hne
      simp [memSaveKeys, he]
    · rintro ⟨k, hkin, hkey⟩
      have hmem : memErrMsg k ∈ input.filterMap (fun k =>
          if k.key = "" then some (memErrMsg k) else none) := by
        rw [List.mem_filterMap]
        exact ⟨k, hkin, by rw [if_pos hkey]⟩
      intro hcontra
      simp only [memSaveKeys] at hcontra
      by_cases hie : (input.filterMap (fun k =>
          if k.key = "" then some (memErrMsg k) else none)).isEmpty
      · rw [List.isEmpty_eq_true] at hie
        rw [hie] at hmem
        cases hmem
      · rw [if_neg hie] at hcontra
        cases hcontra
  · rcases memBuild_lookup input [] f v h with hin | hbase
    · exact hin
    · cases hbase
  · rcases hv : assocGet (memSaveKeys old input).1 k.fqdn with _ | v
    · exfalso
      have := (memBuild_absent input [] k.fqdn hv).2 k hk rfl
      exact hne this
    · rcases memBuild_lookup input [] k.fqdn v hv with hin | hbase
      · exact ⟨v, rfl, hin⟩
      · cases hbase
  · simp only [memGetByFile, List.mem_filterMap]
    constructor
    · rintro ⟨p, hp, he⟩
      by_cases hk : p.2.key = ""
      · rw [if_pos hk] at he; cases he
      · rw [if_neg hk] at he
        by_cases hf : p.2.file = file
        · rw [if_pos hf] at he
          cases he
          exact ⟨p, hp, hk, hf, rfl⟩
        · rw [if_neg hf] at he; cases he
    · rintro ⟨p, hp, hk, hf, he⟩
      refine ⟨p, hp, ?_⟩
      rw [if_neg hk, if_pos hf, he]

/-- A valid sample record for witnesses. -/
def wkValid : DomainKey :=
  { emptyDomainKey with fqdn := "a.test", file := "f.json", key := "k" }

/-- An empty-key sample record for witnesses. -/
def wkEmptyKey : DomainKey :=
  { emptyDomainKey with fqdn := "b.test", file := "f.json" }

/-- Witness for C7 at a concrete input: one valid and one empty-key
record; the valid one is stored and served back with `file` cleared,
and the batch reports an aggregate error without aborting. -/
theorem memory_save_get_spec_witness :
    (memSaveKeys [("x", emptyDomainKey)] [wkValid, wkEmptyKey]).2 ≠ none ∧
    (∃ v, assocGet (memSaveKeys [] [wkValid, wkEmptyKey]).1 "a.test" = some v ∧
      v ∈ [wkValid, wkEmptyKey] ∧ v.key ≠ "" ∧ v.fqdn = "a.test") ∧
    ({ wkValid with file := "" } ∈
      (memGetByFile [("a.test", wkValid)] "f.json").1) := by
  refine ⟨?_, ?_, ?_⟩
  · exact (memory_save_get_spec.2.1 [("x", emptyDomainKey)]
      [wkValid, wkEmptyKey]).mpr ⟨wkEmptyKey, by simp, rfl⟩
  · have h := memory_save_get_spec.2.2.2.1 [] [wkValid, wkEmptyKey]
      wkValid (by simp) (by decide)
    simpa [wkValid] using h
  · exact (memory_save_get_spec.2.2.2.2.1 [("a.test", wkValid)] "f.json"
      { wkValid with file := "" }).mpr
      ⟨("a.test", wkValid), by simp, by decide, by decide, rfl⟩

/-! ## Metrics registry (`internal/metrics/prometheus.go`)

Counter values are `Nat` rather than `float64`: `IncError` only ever
adds 1.0 and `ClearError` stores 0.0, so every value the map holds is an
exactly-representable small integer. -/

/-- Composite label of the expiry gauge. -/
structure ExpireItem where
  key : String
  fqdn : String
deriving DecidableEq, Repr

/-- The collector state: two maps (Go `sync.Map`s). -/
structure Collector where
  errors : List (String × Nat)
  expires : List (ExpireItem × Int)
deriving DecidableEq, Repr

/-- `IncError`: `LoadOrStore(file, 0.0)` then `Store(file, val+1)` —
net effect, the entry exists afterwards and holds its old value plus
one (one, if it did not exist). -/
def incError (c : Collector) (file : String) : Collector :=
  let val := (assocGet c.errors file).getD 0
  { c with errors := assocSet c.errors file (val + 1) }

/-- `ClearError`: stores zero — never deletes the entry (and creates it
when absent). -/
def clearError (c : Collector) (file : String) : Collector :=
  { c with errors := assocSet c.errors file 0 }

/-- `SetExpire`. -/
def setExpire (c : Collector) (key fqdn : String) (expire : Int) : Collector :=
  { c with expires := assocSet c.expires ⟨key, fqdn⟩ expire }

/-- `ClearExpire`: the only map deletion in the collector. -/
def clearExpire (c : Collector) (key fqdn : String) : Collector :=
  { c with expires := assocDel c.expires ⟨key, fqdn⟩ }

/-- One emitted gauge sample. -/
inductive MetricSample where
  | err : String → Nat → MetricSample
  | exp : String → String → Int → MetricSample
deriving DecidableEq, Repr

/-- `Collect`: emit an `ssl_pinning_errors` sample per `errors` entry,
calling `ClearError` on each visited entry (so the entry stays, holding
zero), then an `ssl_pinning_expire` sample per `expires` entry. -/
def collect (c : Collector) : List MetricSample × Collector :=
  (c.errors.map (fun p => MetricSample.err p.1 p.2) ++
    c.expires.map (fun p => MetricSample.exp p.1.key p.1.fqdn p.2),
   { c with errors := c.errors.map (fun p => (p.1, 0)) })

/-- The collector's public operations. -/
inductive MOp where
  | inc : String → MOp
  | clearErr : String → MOp
  | setExp : String → String → Int → MOp
  | clearExp : String → String → MOp
  | scrape : MOp
deriving DecidableEq, Repr

/-- Apply one operation (a scrape discards its samples here). -/
def applyOp (c : Collector) : MOp → Collector
  | MOp.inc f => incError c f
  | MOp.clearErr f => clearError c f
  | MOp.setExp k f v => setExpire c k f v
  | MOp.clearExp k f => clearExpire c k f
  | MOp.scrape => (collect c).2

/-- Apply a sequence of operations. -/
def applyOps (ops : List MOp) (c : Collector) : Collector :=
  ops.foldl applyOp c

/-- The files currently labelled in the errors map. -/
def errKeys (c : Collector) : List String := c.errors.map Prod.fst

/-- Operations the engine performs between scrapes in steady state
(worker `ClearError` happens once at worker start only; `Collect`
itself marks a scrape). -/
def steadyOp : MOp → Bool
  | MOp.inc _ => true
  | MOp.setExp _ _ _ => true
  | MOp.clearExp _ _ => true
  | MOp.clearErr _ => false
  | MOp.scrape => false

/-- Number of `IncError file` calls in an operation sequence. -/
def countInc (file : String) (ops : List MOp) : Nat :=
  ops.countP (fun op => op == MOp.inc file)

theorem errKeys_applyOp (c : Collector) (f : String) (op : MOp)
    (h : f ∈ errKeys c) : f ∈ errKeys (applyOp c op) := by
  cases op with
  | inc g => exact assocSet_mem_keys _ _ _ _ h
  | clearErr g => exact assocSet_mem_keys _ _ _ _ h
  | setExp k g v => exact h
  | clearExp k g => exact h
  | scrape =>
    simp only [applyOp, collect, errKeys, List.map_map] at h ⊢
    simpa using h

theorem errLookup_steady (f : String) (ops : List MOp) :
    ∀ (c : Collector) (v : Nat), assocGet c.errors f = some v →
    (∀ op ∈ ops, steadyOp op = true) →
    assocGet (applyOps ops c).errors f = some (v + countInc f ops) := by
  induction ops with
  | nil => intro c v h _; simpa [applyOps, countInc] using h
  | cons op rest ih =>
    intro c v h hsteady
    have hop := hsteady op (List.mem_cons_self _ _)
    have hrest : ∀ op ∈ rest, steadyOp op = true :=
      fun o ho => hsteady o (List.mem_cons_of_mem _ ho)
    cases op with
    | inc g =>
      by_cases hg : g = f
      · subst hg
        have hstep : assocGet (applyOp c (MOp.inc g)).errors g = some (v + 1) := by
          simp only [applyOp, incError, h, Option.getD_some]
          exact assocGet_set_self _ _ _
        have := ih (applyOp c (MOp.inc g)) (v + 1) hstep hrest
        rw [show applyOps (MOp.inc g :: rest) c = applyOps rest (applyOp c (MOp.inc g)) from rfl]
        rw [this]
        have hcount : countInc g (MOp.inc g :: rest) = countInc g rest + 1 := by
          simp [countInc, List.countP_cons]
        rw [hcount]
        congr 1
        omega
      · have hstep : assocGet (applyOp c (MOp.inc g)).errors f = some v := by
          simp only [applyOp, incError]
          rw [assocGet_set_ne _ _ _ _ hg]
          exact h
        have := ih (applyOp c (MOp.inc g)) v hstep hrest
        rw [show applyOps (MOp.inc g :: rest) c = applyOps rest (applyOp c (MOp.inc g)) from rfl]
        rw [this]
        have hcount : countInc f (MOp.inc g :: rest) = countInc f rest := by
          simp only [countInc, List.countP_cons, beq_iff_eq]
          have : ¬ (MOp.inc g = MOp.inc f) := by
            intro hc
            cases hc
            exact hg rfl
          simp [this]
        rw [hcount]
    | clearErr g => cases hop
    | setExp k g v2 =>
      have hstep : assocGet (applyOp c (MOp.setExp k g v2)).errors f = some v := h
      have := ih _ v hstep hrest
      rw [show applyOps (MOp.setExp k g v2 :: rest) c =
        applyOps rest (applyOp c (MOp.setExp k g v2)) from rfl, this]
      have hcount : countInc f (MOp.setExp k g v2 :: rest) = countInc f rest := by
        simp [countInc, List.countP_cons]
      rw [hcount]
    | clearExp k g =>
      have hstep : assocGet (applyOp c (MOp.clearExp k g)).errors f = some v := h
      have := ih _ v hstep hrest
      rw [show applyOps (MOp.clearExp k g :: rest) c =
        applyOps rest (applyOp c (MOp.clearExp k g)) from rfl, this]
      have hcount : countInc f (MOp.clearExp k g :: rest) = countInc f rest := by
        simp [countInc, List.countP_cons]
      rw [hcount]
    | scrape => cases hop

theorem errLookup_after_collect (c : Collector) (f : String)
    (h : f ∈ errKeys c) : assocGet (collect c).2.errors f = some 0 := by
  have haux : ∀ (l : List (String × Nat)), f ∈ l.map Prod.fst →
      assocGet (l.map (fun p => (p.1, 0))) f = some (0 : Nat) := by
    intro l hl
    induction l with
    | nil => cases hl
    | cons p rest ih =>
      simp only [List.map_cons, List.mem_cons] at hl
      by_cases hp : p.1 = f
      · simp [assocGet, hp]
      · rcases hl with h1 | h1
        · exact absurd h1.symm hp
        · simp only [List.map_cons, assocGet, hp, if_false]
          exact ih h1
  exact haux c.errors h

/-- Claim C10: once `IncError(file)` has run, the errors map holds an
entry for `file` forever — no operation (including `ClearError`, which
stores zero rather than deleting, and `Collect`, which zeroes in place)
removes it — so every collection emits an `ssl_pinning_errors` sample
for `file`; and between scrapes the stored (and next-emitted) value is
exactly the number of `IncError(file)` calls since the last scrape. -/
theorem collector_error_persistence :
    (∀ c f, f ∈ errKeys (applyOp c (MOp.inc f))) ∧
    (∀ c f op, f ∈ errKeys c → f ∈ errKeys (applyOp c op)) ∧
    (∀ c f v, assocGet c.errors f = some v →
      MetricSample.err f v ∈ (collect c).1) ∧
    (∀ c f, f ∈ errKeys c → assocGet (collect c).2.errors f = some 0) ∧
    (∀ c f ops, f ∈ errKeys c → (∀ op ∈ ops, steadyOp op = true) →
      assocGet (applyOps ops (collect c).2).errors f = some (countInc f ops) ∧
      MetricSample.err f (countInc f ops) ∈
        (collect (applyOps ops (collect c).2)).1) := by
  refine ⟨fun c f => ?_, errKeys_applyOp, fun c f v h => ?_,
    errLookup_after_collect, fun c f ops hf hsteady => ?_⟩
  · exact assocSet_self_mem_keys _ _ _
  · have hmem := assocGet_mem _ _ _ h
    simp only [collect, List.mem_append]
    exact Or.inl (List.mem_map.mpr ⟨(f, v), hmem, rfl⟩)
  · have h0 := errLookup_after_collect c f hf
    have h1 := errLookup_steady f ops _ 0 h0 hsteady
    rw [Nat.zero_add] at h1
    refine ⟨h1, ?_⟩
    have hmem := assocGet_mem _ _ _ h1
    simp only [collect, List.mem_append]
    exact Or.inl (List.mem_map.mpr ⟨(f, countInc f ops), hmem, rfl⟩)

/-- Witness for C10: a fresh collector, one increment, a scrape, two
more increments among unrelated gauge traffic, then the next scrape
emits exactly 2. -/
theorem collector_error_persistence_witness :
    ("f.json" ∈ errKeys (applyOp ⟨[], []⟩ (MOp.inc "f.json"))) ∧
    (MetricSample.err "f.json" 1 ∈
      (collect (applyOp ⟨[], []⟩ (MOp.inc "f.json"))).1) ∧
    (assocGet (applyOps [MOp.inc "f.json", MOp.setExp "k" "a.test" 9,
        MOp.inc "f.json"]
        (collect (applyOp ⟨[], []⟩ (MOp.inc "f.json"))).2).errors "f.json" =
      some 2 ∧
     MetricSample.err "f.json" 2 ∈
      (collect (applyOps [MOp.inc "f.json", MOp.setExp "k" "a.test" 9,
        MOp.inc "f.json"]
        (collect (applyOp ⟨[], []⟩ (MOp.inc "f.json"))).2)).1) := by
  refine ⟨collector_error_persistence.1 ⟨[], []⟩ "f.json", ?_, ?_⟩
  · exact collector_error_persistence.2.2.1
      (applyOp ⟨[], []⟩ (MOp.inc "f.json")) "f.json" 1 rfl
  · exact collector_error_persistence.2.2.2.2
      (applyOp ⟨[], []⟩ (MOp.inc "f.json")) "f.json"
      [MOp.inc "f.json", MOp.setExp "k" "a.test" 9, MOp.inc "f.json"]
      (collector_error_persistence.1 ⟨[], []⟩ "f.json") (by decide)

/-! ## The probe worker tick (`internal/keys.worker`) -/

/-- What `fetchDomainKey` returns on success: the certificate's
remaining validity and the base64 SPKI hash. -/
structure FetchResult where
  expire : Int
  key : String
deriving DecidableEq, Repr

/-- The live pin registry `Keys.store` (`map[string]*types.DomainKey`
indexed by FQDN; the worker reads and writes whole values through
`Get`/`Set`). -/
abbrev Registry := List (String × DomainKey)

/-- One `ticker.C` iteration of `Keys.worker` for the captured target
record `wkey`:  read-copy the registry entry for `wkey.Fqdn` (the Go
zero value when absent), stamp `date = now`; on probe success overwrite
`expire`/`key`, clear `last_error` and publish the expiry gauge; on
probe failure keep the copied `key`/`expire`, set `last_error` to the
error text and increment the error counter for `wkey.File`; finally
write the record back. -/
def workerTick (reg : Registry) (c : Collector) (wkey : DomainKey)
    (now : String) (probe : Except String FetchResult) :
    Registry × Collector :=
  let val := (assocGet reg wkey.fqdn).getD emptyDomainKey
  let val := { val with date := some now }
  match probe with
  | Except.ok res =>
    (assocSet reg wkey.fqdn
      { val with expire := res.expire, key := res.key, lastError := "" },
     setExpire c res.key wkey.fqdn res.expire)
  | Except.error e =>
    (assocSet reg wkey.fqdn { val with lastError := e },
     incError c wkey.file)

/-- The error-counter value for a file. -/
def errValue (c : Collector) (file : String) : Nat :=
  (assocGet c.errors file).getD 0

/-- Claim C8: on a failed tick the written-back record keeps the prior
`key` and `expire`, carries `last_error = e` and `date = now`, and the
file's error counter grows by exactly one; on a successful tick `key`
and `expire` are overwritten, `last_error` is cleared and the errors
map is untouched. -/
theorem workerTick_frame (reg : Registry) (c : Collector) (wkey : DomainKey)
    (now : String) (probe : Except String FetchResult) :
    (∀ e, probe = Except.error e →
      assocGet (workerTick reg c wkey now probe).1 wkey.fqdn =
        some { (assocGet reg wkey.fqdn).getD emptyDomainKey with
               date := some now, lastError := e } ∧
      errValue (workerTick reg c wkey now probe).2 wkey.file =
        errValue c wkey.file + 1 ∧
      (workerTick reg c wkey now probe).2.expires = c.expires) ∧
    (∀ r, probe = Except.ok r →
      assocGet (workerTick reg c wkey now probe).1 wkey.fqdn =
        some { (assocGet reg wkey.fqdn).getD emptyDomainKey with
               date := some now, expire := r.expire, key := r.key,
               lastError := "" } ∧
      (workerTick reg c wkey now probe).2.errors = c.errors) := by
  constructor
  · intro e he
    subst he
    refine ⟨assocGet_set_self _ _ _, ?_, rfl⟩
    simp only [workerTick, incError, errValue]
    rw [assocGet_set_self]
    rfl
  · intro r hr
    subst hr
    exact ⟨assocGet_set_self _ _ _, rfl⟩

/-- A previously probed registry record, for witnesses. -/
def wkOldPin : DomainKey :=
  { emptyDomainKey with
      fqdn := "a.test", file := "f.json", key := "oldpin", expire := 100 }

/-- The worker's captured target record, for witnesses. -/
def wkTarget : DomainKey :=
  { emptyDomainKey with fqdn := "a.test", file := "f.json" }

/-- A collector already holding 4 errors for `f.json`, for witnesses. -/
def wkCollector : Collector := ⟨[("f.json", 4)], []⟩

/-- Witness for C8: a registry holding one probed record; a failed tick
preserves its pin and bumps the counter, a successful tick replaces the
pin and clears `last_error`. -/
theorem workerTick_frame_witness :
    (assocGet (workerTick [("a.test", wkOldPin)] wkCollector wkTarget
        "t1" (Except.error "dial tcp: timeout")).1 "a.test" =
      some { wkOldPin with
               date := some "t1", lastError := "dial tcp: timeout" }) ∧
    (errValue (workerTick [("a.test", wkOldPin)] wkCollector wkTarget
        "t1" (Except.error "dial tcp: timeout")).2 "f.json" = 5) ∧
    (assocGet (workerTick
        [("a.test", { wkOldPin with lastError := "old err" })] wkCollector
        wkTarget "t2" (Except.ok ⟨86400, "newpin"⟩)).1 "a.test" =
      some { wkOldPin with
               date := some "t2", key := "newpin", expire := 86400 }) := by
  refine ⟨?_, ?_, ?_⟩
  · have h := ((workerTick_frame [("a.test", wkOldPin)] wkCollector wkTarget
      "t1" (Except.error "dial tcp: timeout")).1 "dial tcp: timeout" rfl).1
    exact h
  · have h := ((workerTick_frame [("a.test", wkOldPin)] wkCollector wkTarget
      "t1" (Except.error "dial tcp: timeout")).1 "dial tcp: timeout" rfl).2.1
    exact h
  · have h := ((workerTick_frame
      [("a.test", { wkOldPin with lastError := "old err" })] wkCollector
      wkTarget "t2" (Except.ok ⟨86400, "newpin"⟩)).2 ⟨86400, "newpin"⟩ rfl).1
    exact h

/-! ## Redis backend (`internal/storage/redis`)

A stored hash's fields keep their Go types: `HSet` writes the typed
values and `HGetAll` returns their string forms; for an `int64` the
`FormatInt`/`ParseInt` round trip is exact, so `expire` stays an `Int`,
and `date` stays the opaque timestamp string.  The composite redis key
is kept as a `List Char` so that the `KEYS {file}:*` pattern match is
list-prefix matching. -/

/-- The hash stored at one composite key. -/
structure RedisHash where
  date : String
  domainName : String
  expire : Int
  file : String
  fqdn : String
  key : String
  lastError : String
deriving DecidableEq, Repr

/-- One redis key/hash pair. -/
structure RedisEntry where
  rkey : List Char
  hash : RedisHash
deriving DecidableEq, Repr

/-- The redis keyspace. -/
abbrev RedisStore := List RedisEntry

/-- The composite key `"{file}:{fqdn}:{app_id}"`. -/
def mkRedisKey (file fqdn appID : String) : List Char :=
  file.data ++ [':'] ++ fqdn.data ++ [':'] ++ appID.data

/-- The hash `SaveKeys` writes for a record (`date` field is the
rendering of the `*time.Time`, empty for nil). -/
def hashOfDomainKey (k : DomainKey) : RedisHash :=
  { date := k.date.getD "", domainName := k.domainName, expire := k.expire,
    file := k.file, fqdn := k.fqdn, key := k.key, lastError := k.lastError }

/-- `HSET`: replace the hash at a key, or create it. -/
def redisHSet (st : RedisStore) (k : List Char) (h : RedisHash) : RedisStore :=
  match st with
  | [] => [⟨k, h⟩]
  | e :: rest =>
    if e.rkey = k then ⟨k, h⟩ :: rest else e :: redisHSet rest k h

/-- Model of redis `SaveKeys`: records with an empty key are skipped
with a bare `continue` — no diagnostic is collected for them, unlike
the memory and filesystem backends — and each remaining record is
`HSET` at its composite key.  The `errs` slice only receives `HSet`
transport errors, which the pure store model excludes, so the function
returns nil. -/
def redisSaveKeys (st : RedisStore) (appID : String)
    (input : List DomainKey) : RedisStore × Option String :=
  (input.foldl (fun st k =>
    if k.key = "" then st
    else redisHSet st (mkRedisKey k.file k.fqdn appID) (hashOfDomainKey k))
    st,
   none)

/-- The `DomainKey` redis `GetByFile` reconstructs from a fetched hash:
`date` is always a non-nil pointer (`time.Parse` yields a value even on
failure), `expire` is parsed back exactly, and the `file` and `app_id`
fields are never populated. -/
def domainKeyOfHash (h : RedisHash) : DomainKey :=
  { appID := "", date := some h.date, domainName := h.domainName,
    expire := h.expire, file := "", fqdn := h.fqdn, key := h.key,
    lastError := h.lastError }

/-- The `KEYS` pattern `"{file}:*"` as the prefix it matches. -/
def redisPat (file : String) : List Char := file.data ++ [':']

/-- One iteration of the `best` grouping loop of redis `GetByFile`:
skip empty-key hashes, group by the hash's `fqdn`, keep the strictly
smaller `expire`. -/
def bestStep (b : List (String × DomainKey)) (e : RedisEntry) :
    List (String × DomainKey) :=
  if e.hash.key = "" then b
  else
    match assocGet b e.hash.fqdn with
    | none => assocSet b e.hash.fqdn (domainKeyOfHash e.hash)
    | some prev =>
      if (domainKeyOfHash e.hash).expire < prev.expire then
        assocSet b e.hash.fqdn (domainKeyOfHash e.hash)
      else b

/-- The full `best` grouping loop. -/
def bestFold (es : List RedisEntry) (b : List (String × DomainKey)) :
    List (String × DomainKey) :=
  es.foldl bestStep b

/-- Model of redis `GetByFile`: scan keys matching `"{file}:*"`,
short-circuit to nil when nothing matches, fetch every matched hash,
drop empties and keep the minimum-`expire` hash per `fqdn`, returning
the grouped map's values. -/
def redisGetByFile (st : RedisStore) (file : String) : List DomainKey :=
  let matched := st.filter (fun e => (redisPat file).isPrefixOf e.rkey)
  if matched.isEmpty then []
  else (bestFold matched []).map Prod.snd

theorem bestStep_lookup (b : List (String × DomainKey)) (e : RedisEntry)
    (f : String) :
    assocGet (bestStep b e) f =
      if e.hash.key = "" then assocGet b f
      else if e.hash.fqdn = f then
        match assocGet b f with
        | none => some (domainKeyOfHash e.hash)
        | some prev =>
          if (domainKeyOfHash e.hash).expire < prev.expire then
            some (domainKeyOfHash e.hash)
          else some prev
      else assocGet b f := by
  unfold bestStep
  by_cases hk : e.hash.key = ""
  · rw [if_pos hk, if_pos hk]
  · rw [if_neg hk, if_neg hk]
    by_cases hf : e.hash.fqdn = f
    · subst hf
      rw [if_pos rfl]
      cases hb : assocGet b e.hash.fqdn with
      | none => simp only [hb]; exact assocGet_set_self _ _ _
      | some prev =>
        simp only [hb]
        by_cases hlt : (domainKeyOfHash e.hash).expire < prev.expire
        · rw [if_pos hlt, if_pos hlt]; exact assocGet_set_self _ _ _
        · rw [if_neg hlt, if_neg hlt]; exact hb
    · rw [if_neg hf]
      cases hb : assocGet b e.hash.fqdn with
      | none => simp only [hb]; exact assocGet_set_ne _ _ _ _ hf
      | some prev =>
        simp only [hb]
        by_cases hlt : (domainKeyOfHash e.hash).expire < prev.expire
        · rw [if_pos hlt]; exact assocGet_set_ne _ _ _ _ hf
        · rw [if_neg hlt]

theorem bestFold_persist (es : List RedisEntry) :
    ∀ (b : List (String × DomainKey)) (f : String) (v : DomainKey),
    assocGet b f = some v →
    ∃ v2, assocGet (bestFold es b) f = some v2 ∧ v2.expire ≤ v.expire := by
  induction es with
  | nil => intro b f v h; exact ⟨v, h, le_refl _⟩
  | cons e rest ih =>
    intro b f v h
    have hstep : ∃ v1, assocGet (bestStep b e) f = some v1 ∧
        v1.expire ≤ v.expire := by
      rw [bestStep_lookup]
      by_cases hk : e.hash.key = ""
      · rw [if_pos hk]; exact ⟨v, h, le_refl _⟩
      · rw [if_neg hk]
        by_cases hf : e.hash.fqdn = f
        · rw [if_pos hf]
          simp only [h]
          by_cases hlt : (domainKeyOfHash e.hash).expire < v.expire
          · rw [if_pos hlt]; exact ⟨_, rfl, le_of_lt hlt⟩
          · rw [if_neg hlt]; exact ⟨v, rfl, le_refl _⟩
        · rw [if_neg hf]; exact ⟨v, h, le_refl _⟩
    obtain ⟨v1, h1, hle1⟩ := hstep
    obtain ⟨v2, h2, hle2⟩ := ih (bestStep b e) f v1 h1
    exact ⟨v2, h2, le_trans hle2 hle1⟩

theorem bestFold_lookup_src (es : List RedisEntry) :
    ∀ (b : List (String × DomainKey)) (f : String) (v : DomainKey),
    assocGet (bestFold es b) f = some v →
    (∃ e ∈ es, e.hash.key ≠ "" ∧ e.hash.fqdn = f ∧
      v = domainKeyOfHash e.hash) ∨ assocGet b f = some v := by
  induction es with
  | nil => intro b f v h; exact Or.inr h
  | cons e rest ih =>
    intro b f v h
    rcases ih (bestStep b e) f v h with hin | hbase
    · obtain ⟨e2, he2, hp⟩ := hin
      exact Or.inl ⟨e2, List.mem_cons_of_mem _ he2, hp⟩
    · rw [bestStep_lookup] at hbase
      by_cases hk : e.hash.key = ""
      · rw [if_pos hk] at hbase; exact Or.inr hbase
      · rw [if_neg hk] at hbase
        by_cases hf : e.hash.fqdn = f
        · rw [if_pos hf] at hbase
          cases hb : assocGet b f with
          | none =>
            simp only [hb] at hbase
            cases hbase
            exact Or.inl ⟨e, List.mem_cons_self _ _, hk, hf, rfl⟩
          | some prev =>
            simp only [hb] at hbase
            by_cases hlt : (domainKeyOfHash e.hash).expire < prev.expire
            · rw [if_pos hlt] at hbase
              cases hbase
              exact Or.inl ⟨e, List.mem_cons_self _ _, hk, hf, rfl⟩
            · rw [if_neg hlt] at hbase
              exact Or.inr hbase
        · rw [if_neg hf] at hbase
          exact Or.inr hbase

theorem bestFold_min (es : List RedisEntry) :
    ∀ (b : List (String × DomainKey)) (f : String) (v : DomainKey),
    assocGet (bestFold es b) f = some v →
    ∀ e ∈ es, e.hash.fqdn = f → e.hash.key ≠ "" →
      v.expire ≤ e.hash.expire := by
  induction es with
  | nil => intro b f v _ e he; cases he
  | cons e0 rest ih =>
    intro b f v h e he hf hk
    rcases List.mem_cons.mp he with heq | hrest
    · subst heq
      have hstep : ∃ v1, assocGet (bestStep b e) f = some v1 ∧
          v1.expire ≤ e.hash.expire := by
        rw [bestStep_lookup, if_neg hk, if_pos hf]
        cases hb : assocGet b f with
        | none =>
          simp only [hb]
          exact ⟨domainKeyOfHash e.hash, rfl, le_refl _⟩
        | some prev =>
          simp only [hb]
          by_cases hlt : (domainKeyOfHash e.hash).expire < prev.expire
          · rw [if_pos hlt]
            exact ⟨domainKeyOfHash e.hash, rfl, le_refl _⟩
          · rw [if_neg hlt]
            refine ⟨prev, rfl, ?_⟩
            simp only [domainKeyOfHash] at hlt
            omega
      obtain ⟨v1, h1, hle1⟩ := hstep
      obtain ⟨v2, h2, hle2⟩ := bestFold_persist rest (bestStep b e) f v1 h1
      rw [show bestFold (e :: rest) b = bestFold rest (bestStep b e) from rfl]
        at h
      rw [h2] at h
      cases h
      exact le_trans hle2 hle1
    · exact ih (bestStep b e0) f v h e hrest hf hk

theorem bestFold_present (es : List RedisEntry) :
    ∀ (b : List (String × DomainKey)) (e : RedisEntry), e ∈ es →
    e.hash.key ≠ "" →
    ∃ v, assocGet (bestFold es b) e.hash.fqdn = some v := by
  induction es with
  | nil => intro b e he; cases he
  | cons e0 rest ih =>
    intro b e he hk
    rcases List.mem_cons.mp he with heq | hrest
    · subst heq
      have hstep : ∃ v1, assocGet (bestStep b e) e.hash.fqdn = some v1 := by
        rw [bestStep_lookup, if_neg hk, if_pos rfl]
        cases hb : assocGet b e.hash.fqdn with
        | none => simp only [hb]; exact ⟨_, rfl⟩
        | some prev =>
          simp only [hb]
          by_cases hlt : (domainKeyOfHash e.hash).expire < prev.expire
          · rw [if_pos hlt]; exact ⟨_, rfl⟩
          · rw [if_neg hlt]; exact ⟨prev, rfl⟩
      obtain ⟨v1, h1⟩ := hstep
      obtain ⟨v2, h2, _⟩ := bestFold_persist rest (bestStep b e) e.hash.fqdn
        v1 h1
      exact ⟨v2, h2⟩
    · exact ih (bestStep b e0) e hrest hk

theorem assocSet_mem_sub {κ α : Type} [DecidableEq κ] (m : List (κ × α))
    (k : κ) (v : α) (p : κ × α) (h : p ∈ assocSet m k v) :
    p ∈ m ∨ p = (k, v) := by
  induction m with
  | nil =>
    simp only [assocSet, List.mem_singleton] at h
    exact Or.inr h
  | cons q rest ih =>
    by_cases hq : q.1 = k
    · rw [show q = (q.1, q.2) from rfl, assocSet, if_pos hq] at h
      rcases List.mem_cons.mp h with he | hm
      · exact Or.inr he
      · exact Or.inl (List.mem_cons_of_mem _ hm)
    · rw [show q = (q.1, q.2) from rfl, assocSet, if_neg hq] at h
      rcases List.mem_cons.mp h with he | hm
      · exact Or.inl (he ▸ List.mem_cons_self _ _)
      · rcases ih hm with h1 | h1
        · exact Or.inl (List.mem_cons_of_mem _ h1)
        · exact Or.inr h1

theorem assocSet_keys_sub {κ α : Type} [DecidableEq κ] (m : List (κ × α))
    (k k2 : κ) (v : α) (h : k2 ∈ (assocSet m k v).map Prod.fst) :
    k2 ∈ m.map Prod.fst ∨ k2 = k := by
  rw [List.mem_map] at h
  obtain ⟨p, hp, he⟩ := h
  rcases assocSet_mem_sub m k v p hp with h1 | h1
  · exact Or.inl (List.mem_map.mpr ⟨p, h1, he⟩)
  · subst h1
    exact Or.inr he.symm

theorem assocSet_keys_nodup {κ α : Type} [DecidableEq κ]
    (m : List (κ × α)) (k : κ) (v : α) (h : (m.map Prod.fst).Nodup) :
    ((assocSet m k v).map Prod.fst).Nodup := by
  induction m with
  | nil => simp [assocSet]
  | cons q rest ih =>
    rw [List.map_cons, List.nodup_cons] at h
    by_cases hq : q.1 = k
    · rw [show q = (q.1, q.2) from rfl, assocSet, if_pos hq]
      rw [List.map_cons, List.nodup_cons]
      exact ⟨hq ▸ h.1, h.2⟩
    · rw [show q = (q.1, q.2) from rfl, assocSet, if_neg hq]
      rw [List.map_cons, List.nodup_cons]
      refine ⟨?_, ih h.2⟩
      intro hmem
      rcases assocSet_keys_sub rest k q.1 v hmem with h1 | h1
      · exact h.1 h1
      · exact hq h1

theorem assocGet_of_mem_nodup {κ α : Type} [DecidableEq κ]
    (m : List (κ × α)) (k : κ) (v : α) (hnd : (m.map Prod.fst).Nodup)
    (h : (k, v) ∈ m) : assocGet m k = some v := by
  induction m with
  | nil => cases h
  | cons q rest ih =>
    rw [List.map_cons, List.nodup_cons] at hnd
    rcases List.mem_cons.mp h with he | hm
    · rw [← he]
      simp [assocGet]
    · have hk : ¬ q.1 = k := by
        intro he2
        exact hnd.1 (he2 ▸ List.mem_map.mpr ⟨(k, v), hm, rfl⟩)
      rw [show q = (q.1, q.2) from rfl, assocGet, if_neg hk]
      exact ih hnd.2 hm

theorem bestStep_cases (b : List (String × DomainKey)) (e : RedisEntry) :
    bestStep b e = b ∨
    bestStep b e = assocSet b e.hash.fqdn (domainKeyOfHash e.hash) := by
  unfold bestStep
  split
  · exact Or.inl rfl
  · split
    · exact Or.inr rfl
    · split
      · exact Or.inr rfl
      · exact Or.inl rfl

theorem bestFold_wf (es : List RedisEntry) :
    ∀ (b : List (String × DomainKey)),
    (∀ p ∈ b, (p : String × DomainKey).2.fqdn = p.1) →
    (b.map Prod.fst).Nodup →
    (∀ p ∈ bestFold es b, (p : String × DomainKey).2.fqdn = p.1) ∧
      ((bestFold es b).map Prod.fst).Nodup := by
  induction es with
  | nil => intro b h1 h2; exact ⟨h1, h2⟩
  | cons e rest ih =>
    intro b h1 h2
    rcases bestStep_cases b e with hc | hc
    · refine ih (bestStep b e) ?_ ?_
      · rw [hc]; exact h1
      · rw [hc]; exact h2
    · refine ih (bestStep b e) ?_ ?_
      · rw [hc]
        intro p hp
        rcases assocSet_mem_sub _ _ _ _ hp with h3 | h3
        · exact h1 p h3
        · subst h3
          rfl
      · rw [hc]
        exact assocSet_keys_nodup _ _ _ h2

/-! ## Postgres backend (`internal/storage/postgres.GetByFile`) -/

/-- One row of `domain_keys` (only the columns `GetByFile` touches;
`date` and `last_error` are nullable). -/
structure PgRow where
  date : Option String
  domainName : String
  expire : Int
  file : String
  fqdn : String
  appID : String
  key : String
  lastError : Option String
deriving DecidableEq, Repr

/-- The `DomainKey` scanned out of a row: `file` and `app_id` are not
selected, a NULL `last_error` stays the empty string. -/
def pgRowToKey (r : PgRow) : DomainKey :=
  { appID := "", date := r.date, domainName := r.domainName,
    expire := r.expire, file := "", fqdn := r.fqdn, key := r.key,
    lastError := r.lastError.getD "" }

/-- The `WHERE file = $1 AND key <> ''` clause.  (No `app_id` scoping:
the query reads all tenants' rows for the file.) -/
def pgCandidates (table : List PgRow) (file : String) : List PgRow :=
  table.filter (fun r => decide (r.file = file ∧ ¬ r.key = ""))

/-- Model of postgres `GetByFile`:
`SELECT DISTINCT ON (fqdn) … WHERE file = $1 AND key <> ''
ORDER BY fqdn, expire ASC` — per distinct `fqdn`, the first row in
`expire`-ascending order, i.e. a minimum-`expire` candidate.  (The SQL
result arrives fqdn-sorted; the model keeps first-appearance order,
which no claim depends on.) -/
def pgGetByFile (table : List PgRow) (file : String) : List DomainKey :=
  let cands := pgCandidates table file
  let fqdns := (cands.map (fun r => r.fqdn)).dedup
  fqdns.filterMap (fun f =>
    ((cands.filter (fun r => decide (r.fqdn = f))).argmin
      (fun r => r.expire)).map pgRowToKey)

/-- Every composite key in the store really is
`"{file}:{fqdn}:{app_id}"` for its hash's own `file`/`fqdn` (what
`SaveKeys` writes). -/
def redisWellFormed (st : RedisStore) : Prop :=
  ∀ e ∈ st, ∃ app : String, e.rkey = mkRedisKey e.hash.file e.hash.fqdn app

/-- No other stored file name aliases into the `"{file}:*"` scan — the
guard the `KEYS` pattern needs because a file name may itself contain
`':'`. -/
def redisNoAliasing (file : String) (st : RedisStore) : Prop :=
  ∀ e ∈ st, (redisPat file).isPrefixOf e.rkey = true → e.hash.file = file

theorem pg_getByFile_spec (table : List PgRow) (file : String) :
    (∀ r ∈ pgGetByFile table file,
      r.key ≠ "" ∧
      (∃ row ∈ table, row.file = file ∧ row.key ≠ "" ∧ row.fqdn = r.fqdn ∧
        r = pgRowToKey row) ∧
      (∀ row ∈ table, row.file = file → row.fqdn = r.fqdn → row.key ≠ "" →
        r.expire ≤ row.expire)) ∧
    (∀ r1 ∈ pgGetByFile table file, ∀ r2 ∈ pgGetByFile table file,
      r1.fqdn = r2.fqdn → r1 = r2) ∧
    (∀ row ∈ table, row.file = file → row.key ≠ "" →
      ∃ r ∈ pgGetByFile table file, r.fqdn = row.fqdn) := by
  have hcand : ∀ row, row ∈ pgCandidates table file ↔
      row ∈ table ∧ row.file = file ∧ row.key ≠ "" := by
    intro row
    simp [pgCandidates, List.mem_filter, and_assoc]
  have hmem : ∀ r, r ∈ pgGetByFile table file ↔
      ∃ f ∈ ((pgCandidates table file).map (fun r2 => r2.fqdn)).dedup,
        ∃ row, ((pgCandidates table file).filter
            (fun r2 => decide (r2.fqdn = f))).argmin (fun r2 => r2.expire) =
          some row ∧ pgRowToKey row = r := by
    intro r
    simp only [pgGetByFile, List.mem_filterMap, Option.map_eq_some']
  have hsrc : ∀ r f row,
      ((pgCandidates table file).filter
        (fun r2 => decide (r2.fqdn = f))).argmin (fun r2 => r2.expire) =
        some row → pgRowToKey row = r →
      row ∈ table ∧ row.file = file ∧ row.key ≠ "" ∧ row.fqdn = f ∧
        r.fqdn = f ∧ r.key = row.key ∧ r.expire = row.expire := by
    intro r f row hargmin hrow
    have hrm := List.argmin_mem (f := fun r2 => r2.expire)
      (show row ∈ _ from hargmin)
    rw [List.mem_filter] at hrm
    have hfq : row.fqdn = f := of_decide_eq_true hrm.2
    obtain ⟨hrt, hrf, hrk⟩ := (hcand row).mp hrm.1
    exact ⟨hrt, hrf, hrk, hfq, by rw [← hrow, pgRowToKey]; exact hfq,
      by rw [← hrow]; rfl, by rw [← hrow]; rfl⟩
  refine ⟨fun r hr => ?_, fun r1 hr1 r2 hr2 hfq => ?_,
    fun row hrow hrf hrk => ?_⟩
  · obtain ⟨f, hf, row, hargmin, hrow⟩ := (hmem r).mp hr
    obtain ⟨hrt, hrf2, hrk, hfq, hrfq, hkey, hexp⟩ :=
      hsrc r f row hargmin hrow
    refine ⟨by rw [hkey]; exact hrk, ⟨row, hrt, hrf2, hrk,
      by rw [hrfq, hfq], hrow.symm⟩, ?_⟩
    intro row2 h2t h2f h2fq h2k
    have h2c : row2 ∈ (pgCandidates table file).filter
        (fun r2 => decide (r2.fqdn = f)) := by
      rw [List.mem_filter]
      refine ⟨(hcand row2).mpr ⟨h2t, h2f, h2k⟩, decide_eq_true ?_⟩
      rw [h2fq, hrfq]
    have := List.le_of_mem_argmin h2c (show row ∈ _ from hargmin)
    rw [hexp]
    exact this
  · obtain ⟨f1, hf1, row1, hargmin1, hrow1⟩ := (hmem r1).mp hr1
    obtain ⟨f2, hf2, row2, hargmin2, hrow2⟩ := (hmem r2).mp hr2
    have h1 := hsrc r1 f1 row1 hargmin1 hrow1
    have h2 := hsrc r2 f2 row2 hargmin2 hrow2
    have hff : f1 = f2 := by
      rw [← h1.2.2.2.2.1, ← h2.2.2.2.2.1, hfq]
    rw [hff] at hargmin1
    rw [hargmin2] at hargmin1
    cases hargmin1
    rw [← hrow1, ← hrow2]
  · have hrc : row ∈ pgCandidates table file :=
      (hcand row).mpr ⟨hrow, hrf, hrk⟩
    have hfd : row.fqdn ∈
        ((pgCandidates table file).map (fun r2 => r2.fqdn)).dedup :=
      List.mem_dedup.mpr (List.mem_map.mpr ⟨row, hrc, rfl⟩)
    have hfl : row ∈ (pgCandidates table file).filter
        (fun r2 => decide (r2.fqdn = row.fqdn)) := by
      rw [List.mem_filter]
      exact ⟨hrc, decide_eq_true rfl⟩
    rcases hargmin : ((pgCandidates table file).filter
        (fun r2 => decide (r2.fqdn = row.fqdn))).argmin
        (fun r2 => r2.expire) with _ | m
    · rw [List.argmin_eq_none] at hargmin
      rw [hargmin] at hfl
      cases hfl
    · have hsm := hsrc (pgRowToKey m) row.fqdn m hargmin rfl
      refine ⟨pgRowToKey m, (hmem (pgRowToKey m)).mpr
        ⟨row.fqdn, hfd, m, hargmin, rfl⟩, hsm.2.2.2.2.1⟩

theorem redis_match_iff (st : RedisStore) (file : String)
    (hwf : redisWellFormed st) (hnc : redisNoAliasing file st) :
    ∀ e, e ∈ st.filter (fun e => (redisPat file).isPrefixOf e.rkey) ↔
      e ∈ st ∧ e.hash.file = file := by
  intro e
  rw [List.mem_filter]
  constructor
  · rintro ⟨hst, hpref⟩
    exact ⟨hst, hnc e hst hpref⟩
  · rintro ⟨hst, hfile⟩
    refine ⟨hst, ?_⟩
    obtain ⟨app, happ⟩ := hwf e hst
    rw [hfile] at happ
    rw [happ, List.isPrefixOf_iff_prefix, mkRedisKey, redisPat]
    have h := List.prefix_append (file.data ++ [':'])
      (e.hash.fqdn.data ++ [':'] ++ app.data)
    simpa [List.append_assoc] using h

theorem redis_getByFile_spec (st : RedisStore) (file : String)
    (hwf : redisWellFormed st) (hnc : redisNoAliasing file st) :
    (∀ r ∈ redisGetByFile st file,
      r.key ≠ "" ∧
      (∃ e ∈ st, e.hash.file = file ∧ e.hash.key ≠ "" ∧
        e.hash.fqdn = r.fqdn ∧ r = domainKeyOfHash e.hash) ∧
      (∀ e ∈ st, e.hash.file = file → e.hash.fqdn = r.fqdn →
        e.hash.key ≠ "" → r.expire ≤ e.hash.expire)) ∧
    (∀ r1 ∈ redisGetByFile st file, ∀ r2 ∈ redisGetByFile st file,
      r1.fqdn = r2.fqdn → r1 = r2) ∧
    (∀ e ∈ st, e.hash.file = file → e.hash.key ≠ "" →
      ∃ r ∈ redisGetByFile st file, r.fqdn = e.hash.fqdn) := by
  have hmatch := redis_match_iff st file hwf hnc
  by_cases hE : (st.filter
      (fun e => (redisPat file).isPrefixOf e.rkey)).isEmpty = true
  · have hres0 : redisGetByFile st file = [] := by
      unfold redisGetByFile
      rw [if_pos hE]
    refine ⟨fun r hr => ?_, fun r1 hr1 => ?_, fun e hst hfile hk => ?_⟩
    · rw [hres0] at hr; cases hr
    · rw [hres0] at hr1; cases hr1
    · exfalso
      have hem := (hmatch e).mpr ⟨hst, hfile⟩
      rw [List.isEmpty_eq_true] at hE
      rw [hE] at hem
      cases hem
  · have hres : redisGetByFile st file =
        (bestFold (st.filter (fun e => (redisPat file).isPrefixOf e.rkey))
          []).map Prod.snd := by
      unfold redisGetByFile
      rw [if_neg hE]
    obtain ⟨hvals, hnodup⟩ := bestFold_wf
      (st.filter (fun e => (redisPat file).isPrefixOf e.rkey)) []
      (fun p hp => absurd hp (List.not_mem_nil p)) (by simp)
    have hget : ∀ r ∈ redisGetByFile st file,
        r.fqdn ∈ (bestFold (st.filter
          (fun e => (redisPat file).isPrefixOf e.rkey)) []).map Prod.fst ∧
        assocGet (bestFold (st.filter
          (fun e => (redisPat file).isPrefixOf e.rkey)) []) r.fqdn =
          some r := by
      intro r hr
      rw [hres, List.mem_map] at hr
      obtain ⟨p, hp, hpr⟩ := hr
      have hfq : r.fqdn = p.1 := by
        rw [← hpr]
        exact hvals p hp
      have hpmem : (r.fqdn, r) ∈ bestFold (st.filter
          (fun e => (redisPat file).isPrefixOf e.rkey)) [] := by
        rw [hfq, ← hpr]
        exact hp
      refine ⟨List.mem_map.mpr ⟨(r.fqdn, r), hpmem, rfl⟩, ?_⟩
      exact assocGet_of_mem_nodup _ _ _ hnodup hpmem
    refine ⟨fun r hr => ?_, fun r1 hr1 r2 hr2 hfq => ?_,
      fun e hst hfile hk => ?_⟩
    · obtain ⟨_, hgr⟩ := hget r hr
      rcases bestFold_lookup_src _ _ _ _ hgr with hsrc | hbase
      · obtain ⟨e, hem, hek, hefq, her⟩ := hsrc
        obtain ⟨hst, hfile⟩ := (hmatch e).mp hem
        refine ⟨by rw [her]; exact hek,
          ⟨e, hst, hfile, hek, by rw [her]; rfl, her⟩, ?_⟩
        intro e2 h2st h2file h2fq h2k
        exact bestFold_min _ _ _ _ hgr e2 ((hmatch e2).mpr ⟨h2st, h2file⟩)
          h2fq h2k
      · cases hbase
    · obtain ⟨_, hg1⟩ := hget r1 hr1
      obtain ⟨_, hg2⟩ := hget r2 hr2
      rw [hfq] at hg1
      rw [hg2] at hg1
      cases hg1
      rfl
    · have hem := (hmatch e).mpr ⟨hst, hfile⟩
      obtain ⟨v, hv⟩ := bestFold_present _ [] e hem hk
      have hvm := assocGet_mem _ _ _ hv
      have hvf : v.fqdn = e.hash.fqdn := hvals (e.hash.fqdn, v) hvm
      refine ⟨v, ?_, hvf⟩
      rw [hres]
      exact List.mem_map.mpr ⟨(e.hash.fqdn, v), hvm, rfl⟩

/-- Claim C5 (amended): both backends return at most one record per
FQDN, never one with an empty key, and for the SQL backend it is a
minimum-`expire` record among the stored rows with that (file, fqdn)
and non-empty key; for the KV backend the same holds provided the
`"{file}:*"` scan is alias-free, i.e. no other stored file name has
`file + ":"` as a prefix of its composite keys (the guard the
counterexample shows is necessary). -/
theorem getByFile_min_expire :
    (∀ (table : List PgRow) (file : String),
      (∀ r ∈ pgGetByFile table file,
        r.key ≠ "" ∧
        (∃ row ∈ table, row.file = file ∧ row.key ≠ "" ∧
          row.fqdn = r.fqdn ∧ r = pgRowToKey row) ∧
        (∀ row ∈ table, row.file = file → row.fqdn = r.fqdn →
          row.key ≠ "" → r.expire ≤ row.expire)) ∧
      (∀ r1 ∈ pgGetByFile table file, ∀ r2 ∈ pgGetByFile table file,
        r1.fqdn = r2.fqdn → r1 = r2) ∧
      (∀ row ∈ table, row.file = file → row.key ≠ "" →
        ∃ r ∈ pgGetByFile table file, r.fqdn = row.fqdn)) ∧
    (∀ (st : RedisStore) (file : String), redisWellFormed st →
      redisNoAliasing file st →
      (∀ r ∈ redisGetByFile st file,
        r.key ≠ "" ∧
        (∃ e ∈ st, e.hash.file = file ∧ e.hash.key ≠ "" ∧
          e.hash.fqdn = r.fqdn ∧ r = domainKeyOfHash e.hash) ∧
        (∀ e ∈ st, e.hash.file = file → e.hash.fqdn = r.fqdn →
          e.hash.key ≠ "" → r.expire ≤ e.hash.expire)) ∧
      (∀ r1 ∈ redisGetByFile st file, ∀ r2 ∈ redisGetByFile st file,
        r1.fqdn = r2.fqdn → r1 = r2) ∧
      (∀ e ∈ st, e.hash.file = file → e.hash.key ≠ "" →
        ∃ r ∈ redisGetByFile st file, r.fqdn = e.hash.fqdn)) :=
  ⟨pg_getByFile_spec, redis_getByFile_spec⟩

/-- A key/hash pair under file name `"a"` at expire 10. -/
def ceEntryA1 : RedisEntry :=
  ⟨mkRedisKey "a" "x" "u1", ⟨"", "", 10, "a", "x", "pinA1", ""⟩⟩

/-- A second tenant's pair under file name `"a"` at expire 20. -/
def ceEntryA2 : RedisEntry :=
  ⟨mkRedisKey "a" "x" "u2", ⟨"", "", 20, "a", "x", "pinA2", ""⟩⟩

/-- A pair under the *other* file name `"a:b"` at expire 5 — its
composite key `"a:b:x:u1"` still matches the scan pattern `"a:*"`. -/
def ceEntryB : RedisEntry :=
  ⟨mkRedisKey "a:b" "x" "u1", ⟨"", "", 5, "a:b", "x", "pinB", ""⟩⟩

/-- A well-formed store in which file `"a:b"` aliases into file `"a"`'s
scan. -/
def ceStore : RedisStore := [ceEntryA1, ceEntryA2, ceEntryB]

/-- Counterexample for C5 as frozen: the store holds two records for
(file `"a"`, fqdn `"x"`), with minimum expire 10, yet the KV
`GetByFile("a")` returns for fqdn `"x"` a record with expire 5 — the
record of file `"a:b"`, pulled in because its composite key matches the
`"a:*"` pattern — so the returned record is *not* the minimum-expire
record for (file, fqdn). -/
theorem redis_getByFile_aliasing_counterexample :
    (∃ r ∈ redisGetByFile ceStore "a", r.fqdn = "x") ∧
    (∀ r ∈ redisGetByFile ceStore "a", r.expire = 5) ∧
    (∀ e ∈ ceStore, e.hash.file = "a" → e.hash.fqdn = "x" →
      e.hash.key ≠ "" → 10 ≤ e.hash.expire) ∧
    ¬ (∃ r ∈ redisGetByFile ceStore "a", ∃ e ∈ ceStore,
        e.hash.file = "a" ∧ r = domainKeyOfHash e.hash) := by decide

/-- The §8 scenario-4 table: two tenants' rows for
(`"f.json"`, `"a.test"`) at expires 1000 and 2000. -/
def wTable : List PgRow :=
  [⟨none, "", 1000, "f.json", "a.test", "app1", "pin1", none⟩,
   ⟨none, "", 2000, "f.json", "a.test", "app2", "pin2", none⟩]

/-- An alias-free two-tenant redis store for (`"f.json"`, `"x"`). -/
def wStore : RedisStore :=
  [⟨mkRedisKey "f.json" "x" "u1", ⟨"", "", 30, "f.json", "x", "p30", ""⟩⟩,
   ⟨mkRedisKey "f.json" "x" "u2", ⟨"", "", 20, "f.json", "x", "p20", ""⟩⟩]

/-- Witness for C5 (amended), on concrete two-row stores: both backends
pick exactly the minimum-expire record per fqdn. -/
theorem getByFile_min_expire_witness :
    (∃ r ∈ pgGetByFile wTable "f.json", r.fqdn = "a.test") ∧
    (∃ r ∈ redisGetByFile wStore "f.json", r.fqdn = "x") ∧
    (∀ r ∈ pgGetByFile wTable "f.json", r.expire = 1000) ∧
    (∀ r ∈ redisGetByFile wStore "f.json", r.expire = 20) := by
  refine ⟨?_, ?_, by decide, by decide⟩
  · exact (getByFile_min_expire.1 wTable "f.json").2.2
      ⟨none, "", 1000, "f.json", "a.test", "app1", "pin1", none⟩
      (by decide) rfl (by decide)
  · refine (getByFile_min_expire.2 wStore "f.json" ?_
      (by unfold redisNoAliasing; decide)).2.2
      ⟨mkRedisKey "f.json" "x" "u2", ⟨"", "", 20, "f.json", "x", "p20", ""⟩⟩
      (by decide) rfl (by decide)
    intro e he
    rcases List.mem_cons.mp he with heq | he2
    · exact ⟨"u1", by rw [heq]⟩
    · rcases List.mem_cons.mp he2 with heq | he3
      · exact ⟨"u2", by rw [heq]⟩
      · cases he3

theorem redisHSet_mem_sub (st : RedisStore) (k : List Char) (h : RedisHash)
    (e : RedisEntry) (he : e ∈ redisHSet st k h) : e ∈ st ∨ e = ⟨k, h⟩ := by
  induction st with
  | nil =>
    simp only [redisHSet, List.mem_singleton] at he
    exact Or.inr he
  | cons q rest ih =>
    simp only [redisHSet] at he
    by_cases hq : q.rkey = k
    · rw [if_pos hq] at he
      rcases List.mem_cons.mp he with heq | hm
      · exact Or.inr heq
      · exact Or.inl (List.mem_cons_of_mem _ hm)
    · rw [if_neg hq] at he
      rcases List.mem_cons.mp he with heq | hm
      · exact Or.inl (heq ▸ List.mem_cons_self _ _)
      · rcases ih hm with h1 | h1
        · exact Or.inl (List.mem_cons_of_mem _ h1)
        · exact Or.inr h1

theorem redisSave_mem (appID : String) (input : List DomainKey) :
    ∀ (st : RedisStore), ∀ e ∈ (input.foldl (fun st k =>
      if k.key = "" then st
      else redisHSet st (mkRedisKey k.file k.fqdn appID)
        (hashOfDomainKey k)) st),
    e ∈ st ∨ ∃ k ∈ input, k.key ≠ "" ∧
      e = ⟨mkRedisKey k.file k.fqdn appID, hashOfDomainKey k⟩ := by
  induction input with
  | nil => intro st e he; exact Or.inl he
  | cons k rest ih =>
    intro st e he
    rcases ih _ e he with hstep | hin
    · have hstep2 : e ∈ (if k.key = "" then st
          else redisHSet st (mkRedisKey k.file k.fqdn appID)
            (hashOfDomainKey k)) := hstep
      by_cases hk : k.key = ""
      · rw [if_pos hk] at hstep2
        exact Or.inl hstep2
      · rw [if_neg hk] at hstep2
        rcases redisHSet_mem_sub _ _ _ _ hstep2 with h1 | h1
        · exact Or.inl h1
        · exact Or.inr ⟨k, List.mem_cons_self _ _, hk, h1⟩
    · obtain ⟨k2, hk2, hp⟩ := hin
      exact Or.inr ⟨k2, List.mem_cons_of_mem _ hk2, hp⟩

/-- Claim C9: redis `SaveKeys` succeeds (nil error) even when some
records have an empty key — those are silently skipped, never written —
whereas the memory backend reports the same batch with an aggregate
error. -/
theorem redisSaveKeys_silent_skip (st : RedisStore) (appID : String)
    (input : List DomainKey) (old : MemMap) :
    (redisSaveKeys st appID input).2 = none ∧
    (∀ e ∈ (redisSaveKeys st appID input).1,
      e ∈ st ∨ ∃ k ∈ input, k.key ≠ "" ∧
        e = ⟨mkRedisKey k.file k.fqdn appID, hashOfDomainKey k⟩) ∧
    ((∃ k ∈ input, k.key = "") → (memSaveKeys old input).2 ≠ none) := by
  refine ⟨rfl, redisSave_mem appID input st, ?_⟩
  rintro ⟨k, hkin, hkey⟩
  have hmem : memErrMsg k ∈ input.filterMap (fun k =>
      if k.key = "" then some (memErrMsg k) else none) := by
    rw [List.mem_filterMap]
    exact ⟨k, hkin, by rw [if_pos hkey]⟩
  intro hcontra
  simp only [memSaveKeys] at hcontra
  by_cases hie : (input.filterMap (fun k =>
      if k.key = "" then some (memErrMsg k) else none)).isEmpty
  · rw [List.isEmpty_eq_true] at hie
    rw [hie] at hmem
    cases hmem
  · rw [if_neg hie] at hcontra
    cases hcontra

/-- Witness for C9: a batch with one valid and one empty-key record —
redis reports success and only the valid record's write appears, while
memory reports an aggregate error for the same batch. -/
theorem redisSaveKeys_silent_skip_witness :
    (redisSaveKeys [] "u1" [wkValid, wkEmptyKey]).2 = none ∧
    ((memSaveKeys [] [wkValid, wkEmptyKey]).2 ≠ none) ∧
    (∀ e ∈ (redisSaveKeys [] "u1" [wkValid, wkEmptyKey]).1,
      e ∈ ([] : RedisStore) ∨ ∃ k ∈ [wkValid, wkEmptyKey], k.key ≠ "" ∧
        e = ⟨mkRedisKey k.file k.fqdn "u1", hashOfDomainKey k⟩) :=
  ⟨(redisSaveKeys_silent_skip [] "u1" [wkValid, wkEmptyKey] []).1,
   (redisSaveKeys_silent_skip [] "u1" [wkValid, wkEmptyKey] []).2.2
     ⟨wkEmptyKey, by simp, rfl⟩,
   (redisSaveKeys_silent_skip [] "u1" [wkValid, wkEmptyKey] []).2.1⟩
